import Mathlib

/-!
Verification development for the `nemotron_lib` streaming ASR library.

The Rust sources are shallowly embedded: pure numeric code is translated to
functions over `ℚ` (machine `f32`/`f64` arithmetic is exact rational
arithmetic here, except where a specific rounding fact matters, which is
modelled explicitly); the opaque ONNX graph invocations (`run_encoder`,
`run_decoder`) and the transcendental kernels (FFT butterflies, `ln`,
`sqrt`, `cos`) are taken as parameters, since their values never decide the
properties below; fallible code returns `Except`; code that mutates
`&mut self` returns the new state explicitly, also on the error path.
Rust strings are modelled as `List Char`; byte buffers as `List Nat` with
each element < 256.
-/

set_option maxRecDepth 2000

/-! ## Constants (src/nemotron_lib/src/nemotron.rs, lines 16-37) -/

def SAMPLE_RATE : Nat := 16000
def N_FFT : Nat := 512
def WIN_LENGTH : Nat := 400
def HOP_LENGTH : Nat := 160
def N_MELS : Nat := 128
/-- `PREEMPH: f32 = 0.97`.  The exact `f32` value of the literal is a
rational within `6e-9` of `97/100`; every claim uses the constant
symbolically (the same constant on both sides), so the decimal value is
used directly. -/
def PREEMPH : ℚ := 97 / 100
def VOCAB_SIZE : Nat := 1024
def BLANK_ID : Nat := 1024
def DEFAULT_CHUNK_SIZE : Nat := 56
def PRE_ENCODE_CACHE : Nat := 9
/-- `max_symbols_per_step = 10` in `Nemotron::decode_chunk`. -/
def MAX_SYMBOLS_PER_STEP : Nat := 10

/-! ## The two log-guard constants (claim C8)

`nemotron.rs` line 22 writes `LOG_ZERO_GUARD: f32 = 5.960_464_5e-8` and
`audio.rs` line 186 writes `2.0f32.powi(-24)`.  Both are `f32` values; we
model each by the exact rational it denotes at runtime.  `2.0f32.powi(-24)`
is exactly `2⁻²⁴` (a power of two inside the normal range is representable).
The decimal literal `5.9604645e-8` lies in the binade `[2⁻²⁴, 2⁻²³)`, where
consecutive `f32` values are spaced `2⁻⁴⁷` apart, so round-to-nearest on
that binade is rounding to the nearest multiple of `2⁻⁴⁷` (the literal is
not a tie, so the tie-breaking rule is irrelevant). -/

/-- Round a rational in the binade `[2⁻²⁴, 2⁻²³)` to the nearest `f32`:
the representable values there are exactly the multiples of `2⁻⁴⁷`. -/
def f32RoundBinade24 (q : ℚ) : ℚ := ((round (q * 2 ^ 47) : ℤ) : ℚ) / 2 ^ 47

/-- The decimal text of the literal on `nemotron.rs` line 22. -/
def LOG_ZERO_GUARD_literal : ℚ := 59604645 / 10 ^ 15

/-- `LOG_ZERO_GUARD: f32 = 5.960_464_5e-8` (nemotron.rs line 22), as the
exact rational value of the `f32` constant. -/
def LOG_ZERO_GUARD : ℚ := f32RoundBinade24 LOG_ZERO_GUARD_literal

/-- `let log_zero_guard: f32 = 2.0f32.powi(-24)` (audio.rs line 186);
exactly representable. -/
def offline_log_zero_guard : ℚ := 1 / 2 ^ 24

/-! ## Matrices

`ndarray::Array2` is modelled as a dimension pair plus a total entry
function; entries at indices outside the stated dimensions are junk and
never inspected by any property below. -/

structure Mat where
  rows : Nat
  cols : Nat
  entry : Nat → Nat → ℚ

/-- `ndarray` matrix product (`a.dot(b)`, with `a.cols = b.rows` at every
call site in the sources). -/
def matDot (a b : Mat) : Mat :=
  { rows := a.rows, cols := b.cols,
    entry := fun i j => ∑ k ∈ Finset.range a.cols, a.entry i k * b.entry k j }

namespace Audio

/-- `audio.rs` lines 27-36, `apply_preemphasis`: the tail recurrence
`y[i] = x[i] − coef·x[i−1]` for `i ≥ 1`, given `x[i−1]` as `prev`. -/
def preemphTail (coef : ℚ) : ℚ → List ℚ → List ℚ
  | _, [] => []
  | prev, x :: xs => (x - coef * prev) :: preemphTail coef x xs

/-- `audio.rs` lines 27-36.  `result.push(audio[0])` indexes element 0
unconditionally, so the empty slice panics (out-of-bounds); the panic is
modelled as `none`. -/
def apply_preemphasis (xs : List ℚ) (coef : ℚ) : Option (List ℚ) :=
  match xs with
  | [] => none
  | x0 :: rest => some (x0 :: preemphTail coef x0 rest)

/-- `audio.rs` lines 48-81, `stft`.  `fftNorm` stands for the composition
of `rustfft`'s forward FFT with `Complex::norm` at one frequency bin: it
receives the windowed frame (as a total function, zero outside `[0, n_fft)`)
and the bin index `k`, and returns `frame[k].norm()` after `fft.process`.
The code stores `magnitude * magnitude`. -/
def stft (fftNorm : (Nat → ℚ) → Nat → ℚ) (hannO : Nat → Nat → ℚ)
    (xs : List ℚ) (n_fft hop_length win_length : Nat) : Mat :=
  let padAmount := n_fft / 2
  let paddedLen := padAmount + xs.length + padAmount
  let padded : Nat → ℚ := fun i =>
    if i < padAmount then 0
    else if i - padAmount < xs.length then xs.getD (i - padAmount) 0 else 0
  let numFrames := (paddedLen - n_fft) / hop_length + 1
  let freqBins := n_fft / 2 + 1
  { rows := freqBins, cols := numFrames,
    entry := fun k frameIdx =>
      let start := frameIdx * hop_length
      let frame : Nat → ℚ := fun i =>
        if i < min win_length (paddedLen - start) then
          padded (start + i) * hannO win_length i
        else 0
      let magnitude := fftNorm frame k
      magnitude * magnitude }

end Audio

namespace Nemotron

/-- `nemotron.rs` lines 569-583, tail of `Nemotron::apply_preemphasis`:
each output is `x[i] − PREEMPH·x[i−1]` if finite, else `0`.  `isFin`
models `f32::is_finite` (exact rational arithmetic never overflows, but
the check is kept to mirror the source). -/
def preemphTailF (isFin : ℚ → Bool) : ℚ → List ℚ → List ℚ
  | _, [] => []
  | prev, x :: xs =>
      (let v := x - PREEMPH * prev; if isFin v then v else 0)
        :: preemphTailF isFin x xs

/-- `nemotron.rs` lines 569-583, `Nemotron::apply_preemphasis`: returns the
empty vector on empty input. -/
def apply_preemphasis (isFin : ℚ → Bool) (xs : List ℚ) : List ℚ :=
  match xs with
  | [] => []
  | x0 :: rest => x0 :: preemphTailF isFin x0 rest

/-- `nemotron.rs` lines 585-623, `Nemotron::stft_center`.  `fftNormSq`
models `fft.process` followed by `Complex::norm_sqr` at one bin; `window`
is the stored Hann window (`Nemotron::create_window`, f32 cosines, kept
opaque).  The `break` when `start + WIN_LENGTH > padded.len()` leaves the
remaining columns zero; since `start` grows with the frame index, that is
the per-column condition used here. -/
def stft_center (fftNormSq : (Nat → ℚ) → Nat → ℚ) (isFin : ℚ → Bool)
    (window : Nat → ℚ) (xs : List ℚ) : Mat :=
  let padAmount := N_FFT / 2
  let paddedLen := padAmount + xs.length + padAmount
  let padded : Nat → ℚ := fun i =>
    if i < padAmount then 0
    else if i - padAmount < xs.length then xs.getD (i - padAmount) 0 else 0
  let numFrames :=
    if WIN_LENGTH ≤ paddedLen then 1 + (paddedLen - WIN_LENGTH) / HOP_LENGTH
    else 0
  let freqBins := N_FFT / 2 + 1
  { rows := freqBins, cols := numFrames,
    entry := fun i frameIdx =>
      let start := frameIdx * HOP_LENGTH
      if paddedLen < start + WIN_LENGTH then 0
      else
        let buffer : Nat → ℚ := fun j =>
          if j < WIN_LENGTH then padded (start + j) * window j else 0
        let magSq := fftNormSq buffer i
        if isFin magSq then magSq else 0 }

/-- `nemotron.rs` lines 557-567, `Nemotron::compute_mel_spectrogram`:
log-mel over the whole buffer, `(x.max(0.0) + LOG_ZERO_GUARD).ln()`
entrywise, no normalization.  `lnO` models `f32::ln`; `melBasis` is the
stored Slaney filterbank (`create_mel_filterbank`, f64 transcendentals,
kept opaque). -/
def compute_mel_spectrogram (lnO : ℚ → ℚ) (fftNormSq : (Nat → ℚ) → Nat → ℚ)
    (isFin : ℚ → Bool) (melBasis : Mat) (window : Nat → ℚ)
    (xs : List ℚ) : Mat :=
  if xs.length = 0 then { rows := N_MELS, cols := 0, entry := fun _ _ => 0 }
  else
    let preemph := apply_preemphasis isFin xs
    let spec := stft_center fftNormSq isFin window preemph
    let mel := matDot melBasis spec
    { rows := mel.rows, cols := mel.cols,
      entry := fun i j => lnO (max (mel.entry i j) 0 + LOG_ZERO_GUARD) }

end Nemotron

/-- From the spec's words (§4.1): "Frame count =
`1 + (padded_len − WIN_LENGTH)/HOP_LENGTH` when `padded_len ≥ WIN_LENGTH`,
else 0", with the window and hop lengths as parameters. -/
def specCenteredFrameCount (paddedLen win hop : Nat) : Nat :=
  if win ≤ paddedLen then 1 + (paddedLen - win) / hop else 0

/-! ## SentencePiece model parsing (claim C6)

Bytes are `List Nat` (each element < 256 at every use).  The Rust code
keeps an absolute position `pos` into `data` and reads through
`&data[pos..]`; the embedding passes the remaining suffix directly, which
is the same accesses.  A position pushed past `data.len()` (wire types 1,
2, 5 and an oversized nested payload) makes the loop condition
`pos < data.len()` false; dropping more elements than remain yields `[]`,
which exits the loop the same way.  The loops are written with fuel; the
entry points supply `data.length + 1`, which is enough because every
iteration consumes at least one byte. -/

/-- `Error::Tokenizer(..)` (the message string is dropped). -/
inductive SpError where
  | tokenizer : SpError
deriving DecidableEq

namespace SentencePieceVocab

/-- nemotron.rs lines 144-161, `read_varint`, on the remaining suffix:
returns `(result, bytes_read)`.  `result` is a `u64`; the shifted summand
is reduced mod `2⁶⁴` exactly as the Rust `<<` does (the shift is at most
63). -/
def readVarintAux : List Nat → Nat → Nat → Nat → Except SpError (Nat × Nat)
  | [], _, _, _ => .error .tokenizer
  | b :: rest, result, shift, pos =>
    if pos < 10 then
      let result := result ||| ((b &&& 0x7F) <<< shift) % 2 ^ 64
      let pos := pos + 1
      if b &&& 0x80 = 0 then .ok (result, pos)
      else readVarintAux rest result (shift + 7) pos
    else .error .tokenizer

def read_varint (data : List Nat) : Except SpError (Nat × Nat) :=
  readVarintAux data 0 0 0

/-- nemotron.rs lines 106-142, the loop of `parse_piece_message`: `piece`
is the accumulator, overwritten by each nested `(field=1, wire=2)` string
whose payload fits (`pos` advances by `len` regardless). -/
def pieceLoop : Nat → List Nat → List Nat → Except SpError (List Nat)
  | 0, _, piece => .ok piece
  | _ + 1, [], piece => .ok piece
  | fuel + 1, b :: bs, piece =>
    match read_varint (b :: bs) with
    | .error e => .error e
    | .ok (field_header, bytes_read) =>
      let rest := (b :: bs).drop bytes_read
      let field_num := field_header >>> 3
      let wire_type := field_header &&& 7
      if field_num = 1 ∧ wire_type = 2 then
        match read_varint rest with
        | .error e => .error e
        | .ok (len, br2) =>
          let rest2 := rest.drop br2
          let piece := if len ≤ rest2.length then rest2.take len else piece
          pieceLoop fuel (rest2.drop len) piece
      else if wire_type = 0 then
        match read_varint rest with
        | .error e => .error e
        | .ok (_, br2) => pieceLoop fuel (rest.drop br2) piece
      else if wire_type = 1 then pieceLoop fuel (rest.drop 8) piece
      else if wire_type = 2 then
        match read_varint rest with
        | .error e => .error e
        | .ok (len, br2) => pieceLoop fuel (rest.drop (br2 + len)) piece
      else if wire_type = 5 then pieceLoop fuel (rest.drop 4) piece
      else .ok piece

/-- nemotron.rs lines 106-142, `parse_piece_message`.  The resulting Rust
`String` is modelled by its byte sequence (`String::from_utf8_lossy`
followed by `to_string` is the identity on valid UTF-8; the replacement of
invalid sequences is not modelled and no claim exercises it). -/
def parse_piece_message (data : List Nat) : Except SpError (List Nat) :=
  pieceLoop (data.length + 1) data []

/-- nemotron.rs lines 58-104, the scan loop of `parse_sentencepiece_model`:
`pieces` is the accumulator; a top-level `(field=1, wire=2)` record whose
payload fits contributes `parse_piece_message` of the payload when that
succeeds (a failed nested parse contributes nothing); an oversized payload
breaks the scan. -/
def parseLoop : Nat → List Nat → List (List Nat) → Except SpError (List (List Nat))
  | 0, _, pieces => .ok pieces
  | _ + 1, [], pieces => .ok pieces
  | fuel + 1, b :: bs, pieces =>
    match read_varint (b :: bs) with
    | .error e => .error e
    | .ok (field_header, bytes_read) =>
      let rest := (b :: bs).drop bytes_read
      let field_num := field_header >>> 3
      let wire_type := field_header &&& 7
      if field_num = 1 ∧ wire_type = 2 then
        match read_varint rest with
        | .error e => .error e
        | .ok (len, br2) =>
          let rest2 := rest.drop br2
          if rest2.length < len then .ok pieces
          else
            let piece_data := rest2.take len
            match parse_piece_message piece_data with
            | .ok piece => parseLoop fuel (rest2.drop len) (pieces ++ [piece])
            | .error _ => parseLoop fuel (rest2.drop len) pieces
      else if wire_type = 0 then
        match read_varint rest with
        | .error e => .error e
        | .ok (_, br2) => parseLoop fuel (rest.drop br2) pieces
      else if wire_type = 1 then parseLoop fuel (rest.drop 8) pieces
      else if wire_type = 2 then
        match read_varint rest with
        | .error e => .error e
        | .ok (len, br2) => parseLoop fuel (rest.drop (br2 + len)) pieces
      else if wire_type = 5 then parseLoop fuel (rest.drop 4) pieces
      else .ok pieces

/-- nemotron.rs lines 58-104, `parse_sentencepiece_model`. -/
def parse_sentencepiece_model (data : List Nat) : Except SpError (List (List Nat)) :=
  match parseLoop (data.length + 1) data [] with
  | .error e => .error e
  | .ok pieces => if pieces = [] then .error .tokenizer else .ok pieces

/-- From the spec's words (§4.6): the nested `(field=1, wire=2)` strings of
one piece record, in order, keeping those whose payload fits; used to
compare the code's recovered piece text against "the first nested
`(field=1, wire=2)` string". -/
def nestedStringsLoop : Nat → List Nat → List (List Nat)
  | 0, _ => []
  | _ + 1, [] => []
  | fuel + 1, b :: bs =>
    match read_varint (b :: bs) with
    | .error _ => []
    | .ok (field_header, bytes_read) =>
      let rest := (b :: bs).drop bytes_read
      let field_num := field_header >>> 3
      let wire_type := field_header &&& 7
      if field_num = 1 ∧ wire_type = 2 then
        match read_varint rest with
        | .error _ => []
        | .ok (len, br2) =>
          let rest2 := rest.drop br2
          if len ≤ rest2.length then
            rest2.take len :: nestedStringsLoop fuel (rest2.drop len)
          else nestedStringsLoop fuel (rest2.drop len)
      else if wire_type = 0 then
        match read_varint rest with
        | .error _ => []
        | .ok (_, br2) => nestedStringsLoop fuel (rest.drop br2)
      else if wire_type = 1 then nestedStringsLoop fuel (rest.drop 8)
      else if wire_type = 2 then
        match read_varint rest with
        | .error _ => []
        | .ok (len, br2) => nestedStringsLoop fuel (rest.drop (br2 + len))
      else if wire_type = 5 then nestedStringsLoop fuel (rest.drop 4)
      else []

def nested_strings (data : List Nat) : List (List Nat) :=
  nestedStringsLoop (data.length + 1) data

/-! ## Detokenizer (claims C5, C9) -/

/-- nemotron.rs lines 168 and 177:
`piece.replace(c2581, " ")` where `c2581` stands for the `'\u{2581}'`
character literal of the source; a single-character pattern replaced by a
single-character string is a character map over the piece. -/
def replace_word_boundary : List Char → List Char
  | [] => []
  | c :: rest => (if c = '▁' then ' ' else c) :: replace_word_boundary rest

/-- Rust `str::trim_start` (drops every leading whitespace character;
Rust uses the Unicode White_Space class, the claims only involve the ASCII
subset that `Char.isWhitespace` covers). -/
def trim_start : List Char → List Char
  | [] => []
  | c :: rest => if c.isWhitespace then trim_start rest else c :: rest

/-- nemotron.rs lines 164-171, the loop body of `decode`: concatenation of
the decoded in-range pieces (out-of-range ids contribute nothing). -/
def decodeLoop (pieces : List (List Char)) : List Nat → List Char
  | [] => []
  | id :: rest =>
      (if id < pieces.length then replace_word_boundary (pieces.getD id [])
       else []) ++ decodeLoop pieces rest

/-- nemotron.rs lines 163-173, `SentencePieceVocab::decode`. -/
def decode (pieces : List (List Char)) (ids : List Nat) : List Char :=
  trim_start (decodeLoop pieces ids)

/-- nemotron.rs lines 175-181, `SentencePieceVocab::decode_single`. -/
def decode_single (pieces : List (List Char)) (id : Nat) : List Char :=
  if id < pieces.length then replace_word_boundary (pieces.getD id []) else []

/-- From the spec's words (§4.5): "A piece starting with U+2581 denotes a
word boundary: replace the leading U+2581 with a single ASCII space.
Other pieces are appended verbatim." -/
def spec_piece_decode : List Char → List Char
  | [] => []
  | c :: rest => if c = '▁' then ' ' :: rest else c :: rest

end SentencePieceVocab

/-! ## TDT detokenizer with digit-spacing heuristic (claim C9) -/

namespace ParakeetTDTDecoder

structure TimedToken where
  text : List Char
  start : ℚ
  /-- named `end` in the source; `end` is a Lean keyword -/
  stop : ℚ

structure TranscriptionResult where
  text : List Char
  tokens : List TimedToken

/-- Modelled from the spec: `vocab.rs` is not under src/.  §2 and §3
describe the Vocabulary as an ordered list of piece strings indexed by id
("id→text"), and the tests of decoder_tdt.rs build
`Vocabulary { id_to_token }` from a string list directly, so `id_to_text`
is the in-range lookup, `None` out of range. -/
def id_to_text (vocab : List (List Char)) (id : Nat) : Option (List Char) :=
  vocab.get? id

/-- Rust `str::trim` (both ends). -/
def rust_trim (s : List Char) : List Char :=
  (SentencePieceVocab.trim_start ((SentencePieceVocab.trim_start s).reverse)).reverse

/-- decoder_tdt.rs lines 48-62: the digit-spacing heuristic applied to one
display piece, given the accumulated text.  `isAlpha` models Rust's
Unicode `char::is_alphabetic` (an external character-class table; it
agrees with `Char.isAlpha` on ASCII); `Char.isDigit` is exactly
`char::is_ascii_digit`. -/
def digit_space (isAlpha : Char → Bool) (full_text display_text : List Char) :
    List Char :=
  if full_text ≠ [] ∧ display_text.head? ≠ some ' ' ∧
      display_text.all Char.isDigit then
    let trailing_letters := (full_text.reverse.takeWhile isAlpha).length
    let last_char := full_text.getLast?
    let is_article_a := trailing_letters = 1 ∧ last_char = some 'a'
    if 1 < trailing_letters ∨ is_article_a then ' ' :: display_text
    else display_text
  else display_text

/-- decoder_tdt.rs lines 65-67: `token_text.starts_with(lt) &&
token_text.ends_with(gt) && token_text != unk` where `lt`, `gt`, `unk`
stand for the source's literals. -/
def is_special (token_text : List Char) : Bool :=
  decide (token_text.head? = some '<' ∧ token_text.getLast? = some '>' ∧
    token_text ≠ ['<', 'u', 'n', 'k', '>'])

/-- decoder_tdt.rs lines 32-78, the token loop of `decode_with_timestamps`.
`i` is the enumeration index; `frame_indices[i]` is modelled with `getD`
(the source panics when `frame_indices` is shorter than `tokens`; every
claim stays in range).  The encoder stride is the literal 8. -/
def dwtLoop (isAlpha : Char → Bool) (vocab : List (List Char))
    (frame_indices : List Nat) (hop_length sample_rate : Nat) :
    List Nat → Nat → List Char → List TimedToken → List Char × List TimedToken
  | [], _, full_text, acc => (full_text, acc)
  | token_id :: rest, i, full_text, acc =>
    match id_to_text vocab token_id with
    | none =>
        dwtLoop isAlpha vocab frame_indices hop_length sample_rate rest (i + 1)
          full_text acc
    | some token_text =>
      let frame := frame_indices.getD i 0
      let start : ℚ := ((frame * 8 * hop_length : Nat) : ℚ) / (sample_rate : ℚ)
      let stop : ℚ :=
        if i + 1 < frame_indices.length then
          ((frame_indices.getD (i + 1) 0 * 8 * hop_length : Nat) : ℚ) /
            (sample_rate : ℚ)
        else start + 1 / 100
      let display_text := SentencePieceVocab.replace_word_boundary token_text
      let display_text := digit_space isAlpha full_text display_text
      if is_special token_text then
        dwtLoop isAlpha vocab frame_indices hop_length sample_rate rest (i + 1)
          full_text acc
      else
        dwtLoop isAlpha vocab frame_indices hop_length sample_rate rest (i + 1)
          (full_text ++ display_text) (acc ++ [⟨display_text, start, stop⟩])

/-- decoder_tdt.rs lines 19-84, `decode_with_timestamps` (the `Result` it
returns is always `Ok`; the `_durations` argument is unused in the
source). -/
def decode_with_timestamps (isAlpha : Char → Bool) (vocab : List (List Char))
    (tokens frame_indices _durations : List Nat)
    (hop_length sample_rate : Nat) : TranscriptionResult :=
  let r := dwtLoop isAlpha vocab frame_indices hop_length sample_rate tokens 0 [] []
  { text := rust_trim r.1, tokens := r.2 }

end ParakeetTDTDecoder

/-! ## Offline feature extraction (claims C7, C8) -/

namespace Audio

/-- The error outcomes of `extract_features_raw`:  `sampleRate` is the
`Error::Audio` mismatch return; `panic` models the out-of-bounds index in
`apply_preemphasis` on empty input (a Rust panic, not an `Err`). -/
inductive FeatError where
  | sampleRate : FeatError
  | panic : FeatError
deriving DecidableEq

/-- Modelled from the spec: `config.rs` is not under src/; the fields are
those `extract_features_raw` reads (§4.1, §6 of the spec: 16 kHz sampling
rate, FFT/hop/window sizes, mel feature count, pre-emphasis α). -/
structure PreprocessorConfig where
  sampling_rate : Nat
  n_fft : Nat
  hop_length : Nat
  win_length : Nat
  feature_size : Nat
  preemphasis : ℚ

/-- audio.rs lines 170-176: mean across each group of `channels` samples. -/
def chunksMean (channels : Nat) (xs : List ℚ) : List ℚ :=
  if h : xs = [] ∨ channels = 0 then []
  else ((xs.take channels).sum / (channels : ℚ)) :: chunksMean channels (xs.drop channels)
termination_by xs.length
decreasing_by
  simp only [List.length_drop]
  rcases Nat.eq_zero_or_pos channels with hc | hc
  · exact absurd (Or.inr hc) h
  · have hxs : xs ≠ [] := fun hh => h (Or.inl hh)
    have : 0 < xs.length := List.length_pos.mpr hxs
    omega

def transposeMat (m : Mat) : Mat :=
  { rows := m.cols, cols := m.rows, entry := fun i j => m.entry j i }

/-- audio.rs lines 191-205: per-feature z-score with Bessel-corrected
variance and `std = variance.sqrt() + 1e-5`.  `sqrtO` models `f32::sqrt`. -/
def normalize_per_feature (sqrtO : ℚ → ℚ) (m : Mat) : Mat :=
  { rows := m.rows, cols := m.cols,
    entry := fun i j =>
      let mean := (∑ r ∈ Finset.range m.rows, m.entry r j) / (m.rows : ℚ)
      let variance :=
        (∑ r ∈ Finset.range m.rows, (m.entry r j - mean) ^ 2) / ((m.rows : ℚ) - 1)
      let std := sqrtO variance + 1 / 100000
      (m.entry i j - mean) / std }

/-- audio.rs lines 157-208, `extract_features_raw`.  `melFB` stands for
`create_mel_filterbank(config.n_fft, config.feature_size,
config.sampling_rate)` (Slaney filterbank, built with f64 transcendentals,
kept opaque; its entries decide no claim); `lnO` models `f32::ln`;
`hannO`/`fftNorm` as in `stft`. -/
def extract_features_raw (lnO sqrtO : ℚ → ℚ)
    (fftNorm : (Nat → ℚ) → Nat → ℚ) (hannO : Nat → Nat → ℚ) (melFB : Mat)
    (xs : List ℚ) (sample_rate : Nat) (channels : Nat)
    (config : PreprocessorConfig) : Except FeatError Mat :=
  if sample_rate ≠ config.sampling_rate then .error .sampleRate
  else
    let xs := if 1 < channels then chunksMean channels xs else xs
    match apply_preemphasis xs config.preemphasis with
    | none => .error .panic
    | some xs =>
      let spectrogram := stft fftNorm hannO xs config.n_fft config.hop_length config.win_length
      let mel_spectrogram := matDot melFB spectrogram
      let logmel :=
        { rows := mel_spectrogram.rows, cols := mel_spectrogram.cols,
          entry := fun i j =>
            lnO (mel_spectrogram.entry i j + offline_log_zero_guard) : Mat }
      .ok (normalize_per_feature sqrtO (transposeMat logmel))

end Audio

/-! ## Streaming recognizer state machine (claims C1-C4, continued below)

The two ONNX graph sessions are opaque: their invocations are parameters
(`ModelOracle`).  The types of the encoder cache and the predictor state
tensors are abstract.  Methods taking `&mut self` return the state of
`self` after the call next to the `Result`, also on the error path
(mutations made before a failure persist, exactly as in Rust). -/

/-- `ndarray::Array3`, as dims plus a total entry function. -/
structure Tens3 where
  d0 : Nat
  d1 : Nat
  d2 : Nat
  entry : Nat → Nat → Nat → ℚ

/-- The two opaque graph invocations of model_nemotron.rs
(`run_encoder`, lines 120-195: mel tensor, scalar length, cache →
encoded tensor, encoded length, next cache; `run_decoder`, lines 199-254:
frame, last token, two states → logits, two next states). -/
structure ModelOracle (Cache St Err : Type) where
  run_encoder : Tens3 → Int → Cache → Except Err (Tens3 × Int × Cache)
  run_decoder : (Nat → ℚ) → Int → St → St → Except Err (List ℚ × St × St)

/-- The mutable fields of the `Nemotron` struct (nemotron.rs lines
190-206), with the immutable vocabulary, filterbank, window and chunk size
it also stores.  `audio_processed` is the source's `audio_processed`
counter ("processed_samples" in the spec). -/
structure RecState (Cache St : Type) where
  vocab : List (List Char)
  encoderCache : Cache
  state_1 : St
  state_2 : St
  last_token : Int
  melBasis : Mat
  window : Nat → ℚ
  audio_buffer : List ℚ
  audio_processed : Nat
  chunk_idx : Nat
  accumulated_tokens : List Nat
  chunk_size : Nat

/-- The decoder-side mutable fields written by `decode_chunk`. -/
structure DecTriple (St : Type) where
  last_token : Int
  state_1 : St
  state_2 : St

namespace Nemotron

/-- nemotron.rs lines 531-538: running argmax over the logits with
`max_val` starting at `f32::NEG_INFINITY` (modelled as `none`) and a
strict `>` comparison, so the first index attaining the maximum wins.
`i` is the index of the head of the remaining list, `best` the current
`max_idx`. -/
def argmaxAux : List ℚ → Nat → Nat → Option ℚ → Nat
  | [], _, best, _ => best
  | v :: rest, i, best, curr =>
      if (match curr with | none => true | some m => decide (m < v)) then
        argmaxAux rest (i + 1) i (some v)
      else argmaxAux rest (i + 1) best curr

def argmaxIdx (logits : List ℚ) : Nat := argmaxAux logits 0 0 none

/-- nemotron.rs lines 526-548, the inner (per-frame symbol) loop of
`decode_chunk`, with the remaining symbol budget as fuel (the source runs
`for _ in 0..max_symbols_per_step`).  Returns the emitted tokens (dropped
by the caller on error), the decoder triple as mutated so far (the Rust
loop writes through `&mut self`, so an error keeps earlier updates), and
the number of decoder-joint invocations made. -/
def greedyInner {St Err : Type}
    (runDec : (Nat → ℚ) → Int → St → St → Except Err (List ℚ × St × St))
    (frame : Nat → ℚ) :
    Nat → DecTriple St → Except Err (List Nat) × DecTriple St × Nat
  | 0, st => (.ok [], st, 0)
  | fuel + 1, st =>
    match runDec frame st.last_token st.state_1 st.state_2 with
    | .error e => (.error e, st, 1)
    | .ok (logits, new_state_1, new_state_2) =>
      let max_idx := argmaxIdx logits
      if max_idx = BLANK_ID then (.ok [], st, 1)
      else
        match greedyInner runDec frame fuel
            ⟨(max_idx : Int), new_state_1, new_state_2⟩ with
        | (.ok ts, st2, c) => (.ok (max_idx :: ts), st2, c + 1)
        | (.error e, st2, c) => (.error e, st2, c + 1)

/-- nemotron.rs lines 514-552, `decode_chunk`: frames `0..enc_frames` in
order; the per-frame vector is the slice `encoder_out[0, ., t]` (the
reshape to `[1, H, 1]` cannot fail and is omitted). -/
def decode_chunk {St Err : Type}
    (runDec : (Nat → ℚ) → Int → St → St → Except Err (List ℚ × St × St))
    (encoder_out : Tens3) :
    Nat → DecTriple St → Except Err (List Nat) × DecTriple St × Nat
  | 0, st => (.ok [], st, 0)
  | n + 1, st =>
    match decode_chunk runDec encoder_out n st with
    | (.ok ts1, st1, c1) =>
      match greedyInner runDec (fun h => encoder_out.entry 0 h n)
          MAX_SYMBOLS_PER_STEP st1 with
      | (.ok ts2, st2, c2) => (.ok (ts1 ++ ts2), st2, c1 + c2)
      | (.error e, st2, c2) => (.error e, st2, c1 + c2)
    | r => r

/-- Rust `as usize` applied to an `i64` (wraps modulo `2⁶⁴`). -/
def usizeOfI64 (v : Int) : Nat := (v % 2 ^ 64).toNat

/-- nemotron.rs lines 443-477: the `chunk_data` buffer (zero-initialised,
`N_MELS` rows of `expected_size` slots) as an entry function
`(mel row, slot) ↦ value`.  The pre-encode-cache region
`[cache_offset, PRE_ENCODE_CACHE)` and the main region starting at
`PRE_ENCODE_CACHE` are disjoint, so the imperative fills become cases on
the slot index. -/
def chunk_entry (full_mel : Mat) (chunkSize mainStart : Nat) (isFirst : Bool)
    (m slot : Nat) : ℚ :=
  if isFirst then
    if PRE_ENCODE_CACHE ≤ slot ∧
        slot - PRE_ENCODE_CACHE < min chunkSize full_mel.cols then
      full_mel.entry m (slot - PRE_ENCODE_CACHE)
    else 0
  else
    let cache_start := mainStart - PRE_ENCODE_CACHE
    let cache_frames := mainStart - cache_start
    let cache_offset := PRE_ENCODE_CACHE - cache_frames
    if cache_offset ≤ slot ∧ slot < PRE_ENCODE_CACHE ∧
        slot - cache_offset < cache_frames then
      full_mel.entry m (cache_start + (slot - cache_offset))
    else if PRE_ENCODE_CACHE ≤ slot ∧
        slot - PRE_ENCODE_CACHE < min chunkSize (full_mel.cols - mainStart) then
      full_mel.entry m (mainStart + (slot - PRE_ENCODE_CACHE))
    else 0

/-- nemotron.rs lines 494-503: the buffer trim at the end of a successful
pump.  Returns the new buffer and the new processed counter. -/
def trim_buffer (chunkSize : Nat) (buf : List ℚ) (processed : Nat) :
    List ℚ × Nat :=
  let keep_samples := (PRE_ENCODE_CACHE + chunkSize) * HOP_LENGTH + WIN_LENGTH
  if keep_samples * 2 < buf.length then
    let remove := buf.length - keep_samples
    let actual_remove := min remove processed
    (buf.drop actual_remove, processed - actual_remove)
  else (buf, processed)

/-- nemotron.rs lines 416-512, `Nemotron::transcribe_chunk`.  Returns the
`Result` paired with the state of `self` after the call.  The errors the
source can hit here are an encoder failure or a decoder-joint failure (the
`from_shape_vec` calls receive a vector whose length equals the product of
the requested dims and cannot fail). -/
def transcribe_chunk {Cache St Err : Type} (M : ModelOracle Cache St Err)
    (lnO : ℚ → ℚ) (fftNormSq : (Nat → ℚ) → Nat → ℚ) (isFin : ℚ → Bool)
    (s : RecState Cache St) (audio_chunk : List ℚ) :
    Except Err (List Char) × RecState Cache St :=
  let s0 := { s with audio_buffer := s.audio_buffer ++ audio_chunk }
  let total_audio := s0.audio_buffer.length
  if total_audio < WIN_LENGTH then (.ok [], s0)
  else
    let full_mel := compute_mel_spectrogram lnO fftNormSq isFin s0.melBasis
      s0.window s0.audio_buffer
    let total_mel_frames := full_mel.cols
    let processed_mel_frames := s0.audio_processed / HOP_LENGTH
    let available_new_frames := total_mel_frames - processed_mel_frames
    if available_new_frames < s0.chunk_size then (.ok [], s0)
    else
      let expected_size := PRE_ENCODE_CACHE + s0.chunk_size
      let is_first_chunk := s0.chunk_idx = 0
      let main_start := processed_mel_frames
      let mel_chunk : Tens3 :=
        { d0 := 1, d1 := N_MELS, d2 := expected_size,
          entry := fun _ m f =>
            chunk_entry full_mel s0.chunk_size main_start is_first_chunk m f }
      match M.run_encoder mel_chunk (expected_size : Int) s0.encoderCache with
      | .error e => (.error e, s0)
      | .ok (encoded, enc_len, new_cache) =>
        let s1 := { s0 with encoderCache := new_cache }
        match decode_chunk M.run_decoder encoded (usizeOfI64 enc_len)
            ⟨s1.last_token, s1.state_1, s1.state_2⟩ with
        | (.error e, dst, _) =>
            let s2 := { s1 with
              last_token := dst.last_token,
              state_1 := dst.state_1,
              state_2 := dst.state_2 }
            (.error e, s2)
        | (.ok tokens, dst, _) =>
          let s2 := { s1 with
            last_token := dst.last_token, state_1 := dst.state_1,
            state_2 := dst.state_2,
            accumulated_tokens := s1.accumulated_tokens ++ tokens,
            audio_processed := s1.audio_processed + s1.chunk_size * HOP_LENGTH,
            chunk_idx := s1.chunk_idx + 1 }
          let tb := trim_buffer s2.chunk_size s2.audio_buffer s2.audio_processed
          let s3 := { s2 with audio_buffer := tb.1, audio_processed := tb.2 }
          let result := tokens.flatMap (fun t =>
            if t < VOCAB_SIZE then SentencePieceVocab.decode_single s3.vocab t
            else [])
          (.ok result, s3)

/-- nemotron.rs lines 325-333, `Nemotron::get_transcript`. -/
def get_transcript {Cache St : Type} (s : RecState Cache St) : List Char :=
  SentencePieceVocab.decode s.vocab
    (s.accumulated_tokens.filter (fun t => decide (t < VOCAB_SIZE)))

end Nemotron

/-! ## Concrete instantiations for closed runs

The opaque graph types are instantiated with `Nat` (cache and predictor
states) and `Unit` (errors).  These oracles only fix what the claims need:
a successful encoder call that replaces the cache and reports a given
encoded length, and a decoder-joint that either returns empty logits or
always fails. -/

/-- An all-zero placeholder encoder output tensor. -/
def zeroTens : Tens3 := ⟨0, 0, 0, fun _ _ _ => 0⟩

/-- Encoder succeeds, replaces the cache (bumps the `Nat` cache), reports
`elen` encoded frames; the decoder-joint returns empty logits and echoes
the states. -/
def encOracle (elen : Int) : ModelOracle Nat Nat Unit :=
  ⟨fun _ _ c => .ok (zeroTens, elen, c + 1), fun _ _ a b => .ok ([], a, b)⟩

/-- Encoder succeeds and replaces the cache (bumps the `Nat` cache),
reporting one encoded frame; the decoder-joint always fails. -/
def errDecOracle : ModelOracle Nat Nat Unit :=
  ⟨fun _ _ c => .ok (zeroTens, 1, c + 1), fun _ _ _ _ => .error ()⟩

/-- A freshly constructed recognizer state over the trivial tensor types:
`from_pretrained` zero-initialises the cache and the predictor state, sets
`last_token := BLANK_ID as i32`, empties the buffers and uses the default
chunk size. -/
def baseState : RecState Nat Nat :=
  { vocab := [], encoderCache := 0, state_1 := 0, state_2 := 0,
    last_token := (1024 : Int),
    melBasis := ⟨N_MELS, N_FFT / 2 + 1, fun _ _ => 0⟩,
    window := fun _ => 0, audio_buffer := [], audio_processed := 0,
    chunk_idx := 0, accumulated_tokens := [],
    chunk_size := DEFAULT_CHUNK_SIZE }

/-! # Theorems -/

/-! ### Helper lemmas: lengths and column counts -/

theorem Audio.preemphTail_length (coef : ℚ) :
    ∀ (prev : ℚ) (xs : List ℚ), (Audio.preemphTail coef prev xs).length = xs.length := by
  intro prev xs
  induction xs generalizing prev with
  | nil => rfl
  | cons x xs ih => simp [Audio.preemphTail, ih]

theorem Nemotron.preemphTailF_length (isFin : ℚ → Bool) :
    ∀ (prev : ℚ) (xs : List ℚ),
      (Nemotron.preemphTailF isFin prev xs).length = xs.length := by
  intro prev xs
  induction xs generalizing prev with
  | nil => rfl
  | cons x xs ih => simp [Nemotron.preemphTailF, ih]

theorem Nemotron.apply_preemphasis_length (isFin : ℚ → Bool) (xs : List ℚ) :
    (Nemotron.apply_preemphasis isFin xs).length = xs.length := by
  cases xs with
  | nil => rfl
  | cons x rest => simp [Nemotron.apply_preemphasis, Nemotron.preemphTailF_length]

theorem Nemotron.stft_center_cols (fftNormSq : (Nat → ℚ) → Nat → ℚ)
    (isFin : ℚ → Bool) (window : Nat → ℚ) (xs : List ℚ) :
    (Nemotron.stft_center fftNormSq isFin window xs).cols =
      specCenteredFrameCount (N_FFT / 2 + xs.length + N_FFT / 2)
        WIN_LENGTH HOP_LENGTH := by
  rfl

theorem Nemotron.compute_mel_spectrogram_cols (lnO : ℚ → ℚ)
    (fftNormSq : (Nat → ℚ) → Nat → ℚ) (isFin : ℚ → Bool) (melBasis : Mat)
    (window : Nat → ℚ) (xs : List ℚ) :
    (Nemotron.compute_mel_spectrogram lnO fftNormSq isFin melBasis window xs).cols =
      if xs.length = 0 then 0
      else specCenteredFrameCount (N_FFT / 2 + xs.length + N_FFT / 2)
        WIN_LENGTH HOP_LENGTH := by
  by_cases h : xs.length = 0
  · simp [Nemotron.compute_mel_spectrogram, h]
  · simp [Nemotron.compute_mel_spectrogram, h, matDot,
      Nemotron.stft_center_cols, Nemotron.apply_preemphasis_length]

theorem Audio.preemphTail_getD (c : ℚ) (xs : List ℚ) :
    ∀ (prev : ℚ) (n : Nat), n < xs.length →
      (Audio.preemphTail c prev xs).getD n 0 =
        xs.getD n 0 - c * (prev :: xs).getD n 0 := by
  induction xs with
  | nil => intro prev n h; simp at h
  | cons x xs ih =>
    intro prev n h
    cases n with
    | zero => simp [Audio.preemphTail]
    | succ n =>
      simp only [Audio.preemphTail, List.getD_cons_succ]
      exact ih x n (by simpa using h)

theorem Nemotron.preemphTailF_getD (isFin : ℚ → Bool) (xs : List ℚ) :
    ∀ (prev : ℚ) (n : Nat), n < xs.length →
      (Nemotron.preemphTailF isFin prev xs).getD n 0 =
        (let v := xs.getD n 0 - PREEMPH * (prev :: xs).getD n 0;
         if isFin v then v else 0) := by
  induction xs with
  | nil => intro prev n h; simp at h
  | cons x xs ih =>
    intro prev n h
    cases n with
    | zero => simp [Nemotron.preemphTailF]
    | succ n =>
      simp only [Nemotron.preemphTailF, List.getD_cons_succ]
      exact ih x n (by simpa using h)

/-- C10: the offline `apply_preemphasis` in audio.rs unconditionally indexes
element 0, so it has no defined result on the empty slice (modelled `none`),
while the streaming `Nemotron::apply_preemphasis` maps the empty input to the
empty vector and replaces non-finite outputs with 0; on every non-empty
input both compute `y[0] = x[0]` and `y[n] = x[n] − 0.97·x[n−1]` (the
streaming one through its finiteness guard). -/
theorem C10_preemphasis :
    (∀ c : ℚ, Audio.apply_preemphasis [] c = none) ∧
    (∀ (x0 : ℚ) (rest : List ℚ) (c : ℚ), ∃ ys,
        Audio.apply_preemphasis (x0 :: rest) c = some ys ∧
        ys.length = (x0 :: rest).length ∧
        ys.getD 0 0 = x0 ∧
        ∀ n, n + 1 < (x0 :: rest).length →
          ys.getD (n + 1) 0 =
            (x0 :: rest).getD (n + 1) 0 - c * (x0 :: rest).getD n 0) ∧
    (∀ isFin, Nemotron.apply_preemphasis isFin [] = []) ∧
    (∀ (isFin : ℚ → Bool) (x0 : ℚ) (rest : List ℚ),
        (Nemotron.apply_preemphasis isFin (x0 :: rest)).length =
          (x0 :: rest).length ∧
        (Nemotron.apply_preemphasis isFin (x0 :: rest)).getD 0 0 = x0 ∧
        ∀ n, n + 1 < (x0 :: rest).length →
          (Nemotron.apply_preemphasis isFin (x0 :: rest)).getD (n + 1) 0 =
            (let v := (x0 :: rest).getD (n + 1) 0 -
                PREEMPH * (x0 :: rest).getD n 0;
             if isFin v then v else 0)) := by
  refine ⟨fun _ => rfl, ?_, fun _ => rfl, ?_⟩
  · intro x0 rest c
    refine ⟨x0 :: Audio.preemphTail c x0 rest, rfl, ?_, rfl, ?_⟩
    · simp [Audio.preemphTail_length]
    · intro n h
      simp only [List.getD_cons_succ]
      exact Audio.preemphTail_getD c rest x0 n (by simpa using h)
  · intro isFin x0 rest
    refine ⟨?_, rfl, ?_⟩
    · simp [Nemotron.apply_preemphasis, Nemotron.preemphTailF_length]
    · intro n h
      simp only [Nemotron.apply_preemphasis, List.getD_cons_succ]
      exact Nemotron.preemphTailF_getD isFin rest x0 n (by simpa using h)

theorem C10_preemphasis_witness :
    Audio.apply_preemphasis [] (97 / 100) = none ∧
    (Nemotron.apply_preemphasis (fun _ => true) [(2 : ℚ), 4]).getD 1 0 =
      (4 : ℚ) - PREEMPH * 2 := by
  refine ⟨C10_preemphasis.1 (97 / 100), ?_⟩
  have h := (C10_preemphasis.2.2.2 (fun _ => true) 2 [4]).2.2 0 (by norm_num)
  simpa using h

/-- C7 counterexample: at the offline `stft` with the library's parameters
(`n_fft` 512, hop 160, window 400) and a 48-sample input, the code produces
1 frame (it divides `padded_len − n_fft`, not `padded_len − WIN_LENGTH`),
while the claimed formula gives 2. -/
theorem C7_counterexample :
    (Audio.stft (fun _ _ => 0) (fun _ _ => 0) (List.replicate 48 0)
      512 160 400).cols = 1 ∧
    specCenteredFrameCount (48 + 2 * (512 / 2)) 400 160 = 2 ∧
    (1 : Nat) ≠ 2 := by
  refine ⟨?_, by norm_num [specCenteredFrameCount], by norm_num⟩
  simp [Audio.stft]

/-- C7 amended: the centred frame-count formula
`1 + (padded_len − WIN_LENGTH)/HOP_LENGTH` (0 when `padded_len <
WIN_LENGTH`) holds for the streaming `stft_center`; the offline `stft`
instead produces `(padded_len − n_fft)/hop_length + 1` frames (never 0),
which agrees with the claimed formula only when `win_length = n_fft` (for
even positive `n_fft`). -/
theorem C7_stft_frame_count :
    (∀ (fftNormSq : (Nat → ℚ) → Nat → ℚ) (isFin : ℚ → Bool)
        (window : Nat → ℚ) (xs : List ℚ),
        (Nemotron.stft_center fftNormSq isFin window xs).cols =
          specCenteredFrameCount (xs.length + 2 * (N_FFT / 2))
            WIN_LENGTH HOP_LENGTH) ∧
    (∀ (fftNorm : (Nat → ℚ) → Nat → ℚ) (hannO : Nat → Nat → ℚ)
        (xs : List ℚ) (n_fft hop win : Nat),
        (Audio.stft fftNorm hannO xs n_fft hop win).cols =
          (xs.length + 2 * (n_fft / 2) - n_fft) / hop + 1) ∧
    (∀ (fftNorm : (Nat → ℚ) → Nat → ℚ) (hannO : Nat → Nat → ℚ)
        (xs : List ℚ) (hop win : Nat), 2 ∣ win → 0 < win →
        (Audio.stft fftNorm hannO xs win hop win).cols =
          specCenteredFrameCount (xs.length + 2 * (win / 2)) win hop) := by
  refine ⟨?_, ?_, ?_⟩
  · intro fftNormSq isFin window xs
    rw [Nemotron.stft_center_cols]
    have : N_FFT / 2 + xs.length + N_FFT / 2 = xs.length + 2 * (N_FFT / 2) := by
      omega
    rw [this]
  · intro fftNorm hannO xs n_fft hop win
    simp only [Audio.stft]
    have : n_fft / 2 + xs.length + n_fft / 2 = xs.length + 2 * (n_fft / 2) := by
      omega
    rw [this]
  · intro fftNorm hannO xs hop win hdvd hpos
    simp only [Audio.stft, specCenteredFrameCount]
    obtain ⟨k, rfl⟩ := hdvd
    have h2 : 2 * k / 2 = k := by omega
    have hle : 2 * k ≤ xs.length + 2 * (2 * k / 2) := by omega
    simp only [h2, if_pos hle]
    have h3 : k + xs.length + k - 2 * k = xs.length := by omega
    have h4 : xs.length + 2 * k - 2 * k = xs.length := by omega
    rw [h3, h4, Nat.add_comm, if_pos (by omega : 2 * k ≤ xs.length + 2 * k)]

theorem C7_stft_frame_count_witness :
    (Audio.stft (fun _ _ => 0) (fun _ _ => 0) ([0] : List ℚ) 4 2 4).cols =
      specCenteredFrameCount (1 + 2 * (4 / 2)) 4 2 := by
  exact C7_stft_frame_count.2.2 (fun _ _ => 0) (fun _ _ => 0) [0] 2 4
    ⟨2, rfl⟩ (by norm_num)

/-- C8 counterexample: the claim says the offline and streaming guard
constants differ (2⁻²⁴ vs ≈5.96e-8); in fact the streaming literal
`5.9604645e-8` rounds to exactly 2⁻²⁴ as an `f32`, so the two constants
are the same rational. -/
theorem C8_counterexample :
    LOG_ZERO_GUARD = offline_log_zero_guard ∧
    LOG_ZERO_GUARD = 1 / 2 ^ 24 := by
  constructor <;>
    norm_num [LOG_ZERO_GUARD, offline_log_zero_guard, f32RoundBinade24,
      LOG_ZERO_GUARD_literal, round_eq]

/-- C8 amended: both guard constants equal 2⁻²⁴; the streaming log-mel is
exactly `ln (max(0, x) + 2⁻²⁴)` entrywise with no further transform (its
log argument is always positive), the offline path omits the `max(0, ·)`
clamp (its log argument can be negative) and instead applies the
Bessel-corrected per-feature z-score, which mean-centres every feature
column.  The paths still must not be unified, but the difference is the
clamp and the normalization, not the guard constant. -/
theorem C8_log_guard :
    LOG_ZERO_GUARD = 1 / 2 ^ 24 ∧
    offline_log_zero_guard = 1 / 2 ^ 24 ∧
    (∀ (lnO : ℚ → ℚ) (fftNormSq : (Nat → ℚ) → Nat → ℚ) (isFin : ℚ → Bool)
        (melBasis : Mat) (window : Nat → ℚ) (x0 : ℚ) (rest : List ℚ)
        (i j : Nat),
        (Nemotron.compute_mel_spectrogram lnO fftNormSq isFin melBasis window
            (x0 :: rest)).entry i j =
          lnO (max ((matDot melBasis
              (Nemotron.stft_center fftNormSq isFin window
                (Nemotron.apply_preemphasis isFin (x0 :: rest)))).entry i j) 0
            + LOG_ZERO_GUARD)) ∧
    (∀ x : ℚ, 0 < max x 0 + LOG_ZERO_GUARD) ∧
    (max (-1 : ℚ) 0 + LOG_ZERO_GUARD ≠ (-1 : ℚ) + offline_log_zero_guard) ∧
    (∀ (sqrtO : ℚ → ℚ) (m : Mat) (j : Nat),
        ∑ i ∈ Finset.range m.rows,
          (Audio.normalize_per_feature sqrtO m).entry i j = 0) := by
  have hg : LOG_ZERO_GUARD = 1 / 2 ^ 24 := by
    norm_num [LOG_ZERO_GUARD, f32RoundBinade24, LOG_ZERO_GUARD_literal,
      round_eq]
  refine ⟨hg, rfl, ?_, ?_, ?_, ?_⟩
  · intro lnO fftNormSq isFin melBasis window x0 rest i j
    simp [Nemotron.compute_mel_spectrogram]
  · intro x
    have : (0 : ℚ) ≤ max x 0 := le_max_right x 0
    have : (0 : ℚ) < LOG_ZERO_GUARD := by rw [hg]; norm_num
    linarith [le_max_right x (0 : ℚ)]
  · rw [hg]
    norm_num [offline_log_zero_guard]
  · intro sqrtO m j
    rcases Nat.eq_zero_or_pos m.rows with h0 | hpos
    · simp [Audio.normalize_per_feature, h0]
    · have hcard : ((m.rows : ℚ)) ≠ 0 := by
        exact_mod_cast Nat.pos_iff_ne_zero.mp hpos
      simp only [Audio.normalize_per_feature]
      rw [← Finset.sum_div, Finset.sum_sub_distrib, Finset.sum_const,
        Finset.card_range, nsmul_eq_mul]
      have hm : (m.rows : ℚ) *
          ((∑ r ∈ Finset.range m.rows, m.entry r j) / (m.rows : ℚ)) =
          ∑ r ∈ Finset.range m.rows, m.entry r j := by
        field_simp
      rw [hm, sub_self, zero_div]

/-- C5 counterexample: `decode` replaces every occurrence of U+2581, not
only a leading one: for the piece "a▁b" the code yields "a b", while the
claim preserves the interior U+2581 ("other pieces are appended
verbatim"). -/
theorem C5_counterexample :
    SentencePieceVocab.decode [['a', '▁', 'b']] [0] = ['a', ' ', 'b'] ∧
    SentencePieceVocab.spec_piece_decode ['a', '▁', 'b'] = ['a', '▁', 'b'] ∧
    (['a', ' ', 'b'] : List Char) ≠ ['a', '▁', 'b'] := by
  refine ⟨by decide, by decide, by decide⟩

theorem SentencePieceVocab.replace_word_boundary_length :
    ∀ p : List Char,
      (SentencePieceVocab.replace_word_boundary p).length = p.length := by
  intro p
  induction p with
  | nil => rfl
  | cons c rest ih => simp [SentencePieceVocab.replace_word_boundary, ih]

theorem SentencePieceVocab.replace_word_boundary_getD (p : List Char) :
    ∀ i : Nat, i < p.length →
      (SentencePieceVocab.replace_word_boundary p).getD i ' ' =
        if p.getD i ' ' = '▁' then ' ' else p.getD i ' ' := by
  induction p with
  | nil => intro i h; simp at h
  | cons c rest ih =>
    intro i h
    cases i with
    | zero => simp [SentencePieceVocab.replace_word_boundary]
    | succ i =>
      simp only [SentencePieceVocab.replace_word_boundary, List.getD_cons_succ]
      exact ih i (by simpa using h)

theorem SentencePieceVocab.decodeLoop_eq_flatten (pieces : List (List Char)) :
    ∀ ids : List Nat,
      SentencePieceVocab.decodeLoop pieces ids =
        (ids.map (SentencePieceVocab.decode_single pieces)).flatten := by
  intro ids
  induction ids with
  | nil => rfl
  | cons id rest ih =>
    simp [SentencePieceVocab.decodeLoop, SentencePieceVocab.decode_single, ih]

/-- C5 amended: decoding replaces EVERY occurrence of U+2581 in a piece by
an ASCII space (the leading one included, interior ones are not
preserved), and the final `trim_start` drops every leading whitespace
character; `decode` is the trimmed concatenation of `decode_single` over
the ids, and `get_transcript` is `decode` of the accumulated stream
restricted to ids below `VOCAB_SIZE`. -/
theorem C5_decode :
    (∀ p : List Char,
        SentencePieceVocab.replace_word_boundary ('▁' :: p) =
          ' ' :: SentencePieceVocab.replace_word_boundary p) ∧
    (∀ p : List Char,
        (SentencePieceVocab.replace_word_boundary p).length = p.length) ∧
    (∀ (p : List Char) (i : Nat), i < p.length →
        (SentencePieceVocab.replace_word_boundary p).getD i ' ' =
          if p.getD i ' ' = '▁' then ' ' else p.getD i ' ') ∧
    (∀ s : List Char,
        SentencePieceVocab.trim_start (' ' :: s) =
          SentencePieceVocab.trim_start s) ∧
    (∀ (c : Char) (s : List Char), c.isWhitespace = false →
        SentencePieceVocab.trim_start (c :: s) = c :: s) ∧
    (∀ (pieces : List (List Char)) (ids : List Nat),
        SentencePieceVocab.decode pieces ids =
          SentencePieceVocab.trim_start
            ((ids.map (SentencePieceVocab.decode_single pieces)).flatten)) ∧
    (∀ (Cache St : Type) (s : RecState Cache St),
        Nemotron.get_transcript s =
          SentencePieceVocab.decode s.vocab
            (s.accumulated_tokens.filter (fun t => decide (t < VOCAB_SIZE)))) := by
  refine ⟨?_, SentencePieceVocab.replace_word_boundary_length,
    SentencePieceVocab.replace_word_boundary_getD, ?_, ?_, ?_,
    fun _ _ _ => rfl⟩
  · intro p
    simp [SentencePieceVocab.replace_word_boundary]
  · intro s
    have : (' ' : Char).isWhitespace = true := by decide
    simp [SentencePieceVocab.trim_start, this]
  · intro c s h
    simp [SentencePieceVocab.trim_start, h]
  · intro pieces ids
    rw [SentencePieceVocab.decode, SentencePieceVocab.decodeLoop_eq_flatten]

theorem C5_decode_witness :
    (SentencePieceVocab.replace_word_boundary ['x', '▁']).getD 1 ' ' = ' ' ∧
    SentencePieceVocab.trim_start ['b', ' '] = ['b', ' '] := by
  constructor
  · have h := C5_decode.2.2.1 ['x', '▁'] 1 (by norm_num)
    simpa using h
  · exact C5_decode.2.2.2.2.1 'b' [' '] (by decide)

/-- C9: the digit-spacing heuristic prepends a space to a piece whose
display text does not start with a space and consists entirely of ASCII
digits exactly when the accumulated transcript ends in more than one
alphabetic character, or in exactly one alphabetic character that is 'a';
on the claim's literal vocabularies, "▁a" "2" "4" detokenizes to "a 24"
and "▁A" "4" to "A4". -/
theorem C9_digit_spacing :
    (∀ (isAlpha : Char → Bool) (full display : List Char),
        display.head? ≠ some ' ' → display.all Char.isDigit = true →
        ((ParakeetTDTDecoder.digit_space isAlpha full display =
            ' ' :: display ↔
          1 < (full.reverse.takeWhile isAlpha).length ∨
            ((full.reverse.takeWhile isAlpha).length = 1 ∧
              full.getLast? = some 'a')) ∧
        (¬ (1 < (full.reverse.takeWhile isAlpha).length ∨
            ((full.reverse.takeWhile isAlpha).length = 1 ∧
              full.getLast? = some 'a')) →
          ParakeetTDTDecoder.digit_space isAlpha full display = display))) ∧
    (ParakeetTDTDecoder.decode_with_timestamps Char.isAlpha
        [['▁', 'a'], ['2'], ['4']] [0, 1, 2] [0, 1, 2] [1, 1, 1] 160
        16000).text = ['a', ' ', '2', '4'] ∧
    (ParakeetTDTDecoder.decode_with_timestamps Char.isAlpha
        [['▁', 'A'], ['4']] [0, 1] [0, 1] [1, 1] 160 16000).text =
      ['A', '4'] := by
  refine ⟨?_, by decide, by decide⟩
  intro isAlpha full display hhd hdig
  by_cases hfull : full = ([] : List Char)
  · subst hfull
    constructor
    · simp [ParakeetTDTDecoder.digit_space]
    · intro _
      simp [ParakeetTDTDecoder.digit_space]
  · by_cases hc : 1 < (full.reverse.takeWhile isAlpha).length ∨
        ((full.reverse.takeWhile isAlpha).length = 1 ∧
          full.getLast? = some 'a')
    · have hd : ParakeetTDTDecoder.digit_space isAlpha full display =
          ' ' :: display := by
        simp only [ParakeetTDTDecoder.digit_space,
          if_pos (⟨hfull, hhd, hdig⟩ : full ≠ [] ∧
            display.head? ≠ some ' ' ∧ display.all Char.isDigit = true)]
        exact if_pos hc
      exact ⟨by simp [hd, hc], fun h => absurd hc h⟩
    · have hd : ParakeetTDTDecoder.digit_space isAlpha full display =
          display := by
        simp only [ParakeetTDTDecoder.digit_space,
          if_pos (⟨hfull, hhd, hdig⟩ : full ≠ [] ∧
            display.head? ≠ some ' ' ∧ display.all Char.isDigit = true)]
        exact if_neg hc
      refine ⟨?_, fun _ => hd⟩
      rw [hd]
      simp only [hc, iff_false]
      exact fun h => absurd h.symm (List.cons_ne_self ' ' display)

theorem SentencePieceVocab.pieceLoop_getLastD :
    ∀ (fuel : Nat) (data piece p : List Nat),
      SentencePieceVocab.pieceLoop fuel data piece = .ok p →
      p = (SentencePieceVocab.nestedStringsLoop fuel data).getLastD piece := by
  intro fuel
  induction fuel with
  | zero =>
    intro data piece p h
    simp only [SentencePieceVocab.pieceLoop] at h
    cases h
    simp [SentencePieceVocab.nestedStringsLoop]
  | succ fuel ih =>
    intro data piece p h
    cases data with
    | nil =>
      simp only [SentencePieceVocab.pieceLoop] at h
      cases h
      simp [SentencePieceVocab.nestedStringsLoop]
    | cons b bs =>
      simp only [SentencePieceVocab.pieceLoop] at h
      simp only [SentencePieceVocab.nestedStringsLoop]
      rcases hrv : SentencePieceVocab.read_varint (b :: bs) with e | ⟨fh, br⟩
      · rw [hrv] at h; cases h
      · rw [hrv] at h
        simp only at h ⊢
        by_cases h12 : fh >>> 3 = 1 ∧ fh &&& 7 = 2
        · rw [if_pos h12] at h
          rw [if_pos h12]
          rcases hrv2 : SentencePieceVocab.read_varint ((b :: bs).drop br) with
            e2 | ⟨len, br2⟩
          · rw [hrv2] at h; cases h
          · rw [hrv2] at h
            simp only at h ⊢
            by_cases hfit : len ≤ (((b :: bs).drop br).drop br2).length
            · rw [if_pos hfit] at h
              rw [if_pos hfit]
              rw [List.getLastD_cons]
              exact ih _ _ p h
            · rw [if_neg hfit] at h
              rw [if_neg hfit]
              exact ih _ _ p h
        · rw [if_neg h12] at h
          rw [if_neg h12]
          by_cases hw0 : fh &&& 7 = 0
          · rw [if_pos hw0] at h
            rw [if_pos hw0]
            rcases hrv2 : SentencePieceVocab.read_varint ((b :: bs).drop br) with
              e2 | ⟨v2, br2⟩
            · rw [hrv2] at h; cases h
            · rw [hrv2] at h
              simp only at h ⊢
              exact ih _ _ p h
          · rw [if_neg hw0] at h
            rw [if_neg hw0]
            by_cases hw1 : fh &&& 7 = 1
            · rw [if_pos hw1] at h
              rw [if_pos hw1]
              exact ih _ _ p h
            · rw [if_neg hw1] at h
              rw [if_neg hw1]
              by_cases hw2 : fh &&& 7 = 2
              · rw [if_pos hw2] at h
                rw [if_pos hw2]
                rcases hrv2 : SentencePieceVocab.read_varint ((b :: bs).drop br)
                  with e2 | ⟨len, br2⟩
                · rw [hrv2] at h; cases h
                · rw [hrv2] at h
                  simp only at h ⊢
                  exact ih _ _ p h
              · rw [if_neg hw2] at h
                rw [if_neg hw2]
                by_cases hw5 : fh &&& 7 = 5
                · rw [if_pos hw5] at h
                  rw [if_pos hw5]
                  exact ih _ _ p h
                · rw [if_neg hw5] at h
                  rw [if_neg hw5]
                  cases h
                  simp

theorem SentencePieceVocab.read_varint_single (n : Nat) (hn : n < 128)
    (xs : List Nat) :
    SentencePieceVocab.read_varint (n :: xs) = .ok (n, 1) := by
  have h127 : n &&& 127 = n := by
    have h : (127 : Nat) = 2 ^ 7 - 1 := by norm_num
    rw [h]
    exact Nat.and_pow_two_sub_one_of_lt_two_pow (by omega : n < 2 ^ 7)
  have h128 : n &&& 128 = 0 := by
    have h7 : n.testBit 7 = false :=
      Nat.testBit_lt_two_pow (by omega : n < 2 ^ 7)
    have h : (128 : Nat) = 2 ^ 7 := by norm_num
    rw [h, Nat.and_two_pow, h7]
    rfl
  have hbig : n < 18446744073709551616 := Nat.lt_of_lt_of_le hn (by norm_num)
  simp [SentencePieceVocab.read_varint, SentencePieceVocab.readVarintAux,
    h127, h128, Nat.mod_eq_of_lt hbig]

/-- C6 counterexample: for a piece record holding two nested
`(field=1, wire=2)` strings ("" then "b"), the parser keeps the LAST one
("b"), not the first ("") as the claim states. -/
theorem C6_counterexample :
    SentencePieceVocab.parse_sentencepiece_model
      [0x0a, 5, 0x0a, 0, 0x0a, 1, 0x62] = .ok [[0x62]] ∧
    SentencePieceVocab.nested_strings [0x0a, 0, 0x0a, 1, 0x62] =
      [[], [0x62]] ∧
    ([0x62] : List Nat) ≠ [] := by
  exact ⟨rfl, rfl, by decide⟩

/-- C6 amended: a top-level `(field=1, wire=2)` record whose payload fits
contributes `parse_piece_message` of the payload when that succeeds; the
recovered piece text is the LAST nested `(field=1, wire=2)` string whose
payload fits (default empty), not the first; the parse errors when the
scan completes with zero pieces, but a malformed varint also errors even
after pieces were recovered, so "error exactly when zero pieces" holds
only in the success direction. -/
theorem C6_parse :
    (∀ (data : List Nat) (pieces : List (List Nat)),
        SentencePieceVocab.parse_sentencepiece_model data = .ok pieces →
        pieces ≠ []) ∧
    (∀ (data piece : List Nat),
        SentencePieceVocab.parse_piece_message data = .ok piece →
        piece = (SentencePieceVocab.nested_strings data).getLastD []) ∧
    (∀ (fuel n : Nat) (payload rest : List Nat) (pieces : List (List Nat)),
        payload.length = n → n < 128 →
        SentencePieceVocab.parseLoop (fuel + 1)
            (0x0a :: n :: (payload ++ rest)) pieces =
          match SentencePieceVocab.parse_piece_message payload with
          | .ok piece => SentencePieceVocab.parseLoop fuel rest (pieces ++ [piece])
          | .error _ => SentencePieceVocab.parseLoop fuel rest pieces) ∧
    (SentencePieceVocab.parse_sentencepiece_model [0x0a, 2, 0x0a, 0] =
      .ok [[]]) ∧
    (SentencePieceVocab.parse_sentencepiece_model [0x0a, 2, 0x0a, 0, 0x80] =
      .error .tokenizer) := by
  refine ⟨?_, ?_, ?_, rfl, rfl⟩
  · intro data pieces h
    unfold SentencePieceVocab.parse_sentencepiece_model at h
    split at h
    · cases h
    · split at h
      · cases h
      · cases h; assumption
  · intro data piece h
    exact SentencePieceVocab.pieceLoop_getLastD _ _ _ _ h
  · intro fuel n payload rest pieces hlen hn
    have hrv1 : SentencePieceVocab.read_varint
        (0x0a :: n :: (payload ++ rest)) = .ok (0x0a, 1) := rfl
    simp only [SentencePieceVocab.parseLoop, hrv1]
    have hd1 : (0x0a :: n :: (payload ++ rest)).drop 1 = n :: (payload ++ rest) := rfl
    rw [hd1]
    have h12 : (0x0a : Nat) >>> 3 = 1 ∧ (0x0a : Nat) &&& 7 = 2 := by decide
    rw [if_pos h12]
    rw [SentencePieceVocab.read_varint_single n hn (payload ++ rest)]
    simp only
    have hd2 : (n :: (payload ++ rest)).drop 1 = payload ++ rest := rfl
    rw [hd2]
    have hfit : ¬ (payload ++ rest).length < n := by
      simp only [List.length_append, hlen]
      omega
    rw [if_neg hfit]
    subst hlen
    rw [List.take_left, List.drop_left]

theorem C6_parse_witness :
    SentencePieceVocab.parseLoop 1 [0x0a, 1, 0x61] [] = .ok [[]] := by
  have h := C6_parse.2.2.1 0 1 [0x61] [] [] rfl (by norm_num)
  have hp : SentencePieceVocab.parse_piece_message [0x61] = .ok [] := rfl
  rw [hp] at h
  simpa [SentencePieceVocab.parseLoop] using h

theorem C9_digit_spacing_witness :
    ParakeetTDTDecoder.digit_space Char.isAlpha ['a'] ['2'] = [' ', '2'] := by
  have h := (C9_digit_spacing.1 Char.isAlpha ['a'] ['2'] (by decide)
    (by decide)).1.mpr (Or.inr ⟨by decide, by decide⟩)
  simpa using h

theorem Nemotron.argmaxAux_some_spec (l : List ℚ) :
    ∀ (i best : Nat) (m : ℚ),
      (Nemotron.argmaxAux l i best (some m) = best ∧
        ∀ j, j < l.length → l.getD j 0 ≤ m) ∨
      (∃ k, k < l.length ∧ Nemotron.argmaxAux l i best (some m) = i + k ∧
        m < l.getD k 0 ∧ (∀ j, j < l.length → l.getD j 0 ≤ l.getD k 0) ∧
        (∀ j, j < k → l.getD j 0 < l.getD k 0)) := by
  induction l with
  | nil =>
    intro i best m
    left
    exact ⟨rfl, by simp⟩
  | cons v rest ih =>
    intro i best m
    by_cases hv : m < v
    · have hstep : Nemotron.argmaxAux (v :: rest) i best (some m) =
          Nemotron.argmaxAux rest (i + 1) i (some v) := by
        simp [Nemotron.argmaxAux, hv]
      rcases ih (i + 1) i v with ⟨heq, hall⟩ | ⟨k, hk, heq, hgt, hmax, hfirst⟩
      · right
        refine ⟨0, by simp, ?_, by simpa using hv, ?_, ?_⟩
        · rw [hstep, heq]; omega
        · intro j hj
          cases j with
          | zero => simp
          | succ j =>
            simp only [List.getD_cons_succ, List.getD_cons_zero]
            exact hall j (by simpa using hj)
        · intro j hj
          exact absurd hj (Nat.not_lt_zero j)
      · right
        refine ⟨k + 1, by simpa using hk, ?_, ?_, ?_, ?_⟩
        · rw [hstep, heq]; omega
        · simp only [List.getD_cons_succ]
          exact lt_trans hv hgt
        · intro j hj
          cases j with
          | zero =>
            simp only [List.getD_cons_zero, List.getD_cons_succ]
            exact le_of_lt hgt
          | succ j =>
            simp only [List.getD_cons_succ]
            exact hmax j (by simpa using hj)
        · intro j hj
          cases j with
          | zero =>
            simp only [List.getD_cons_zero, List.getD_cons_succ]
            exact hgt
          | succ j =>
            simp only [List.getD_cons_succ]
            exact hfirst j (by omega)
    · have hstep : Nemotron.argmaxAux (v :: rest) i best (some m) =
          Nemotron.argmaxAux rest (i + 1) best (some m) := by
        simp [Nemotron.argmaxAux, hv]
      rcases ih (i + 1) best m with ⟨heq, hall⟩ | ⟨k, hk, heq, hgt, hmax, hfirst⟩
      · left
        refine ⟨by rw [hstep, heq], ?_⟩
        intro j hj
        cases j with
        | zero => simpa using not_lt.mp hv
        | succ j =>
          simp only [List.getD_cons_succ]
          exact hall j (by simpa using hj)
      · right
        refine ⟨k + 1, by simpa using hk, by rw [hstep, heq]; omega, ?_, ?_, ?_⟩
        · simp only [List.getD_cons_succ]
          exact hgt
        · intro j hj
          cases j with
          | zero =>
            simp only [List.getD_cons_zero, List.getD_cons_succ]
            exact le_of_lt (lt_of_le_of_lt (not_lt.mp hv) hgt)
          | succ j =>
            simp only [List.getD_cons_succ]
            exact hmax j (by simpa using hj)
        · intro j hj
          cases j with
          | zero =>
            simp only [List.getD_cons_zero, List.getD_cons_succ]
            exact lt_of_le_of_lt (not_lt.mp hv) hgt
          | succ j =>
            simp only [List.getD_cons_succ]
            exact hfirst j (by omega)

theorem Nemotron.argmaxIdx_spec (l : List ℚ) (hl : l ≠ []) :
    Nemotron.argmaxIdx l < l.length ∧
    (∀ j, j < l.length → l.getD j 0 ≤ l.getD (Nemotron.argmaxIdx l) 0) ∧
    (∀ j, j < Nemotron.argmaxIdx l →
      l.getD j 0 < l.getD (Nemotron.argmaxIdx l) 0) := by
  match l, hl with
  | v :: rest, _ =>
    have hstep : Nemotron.argmaxIdx (v :: rest) =
        Nemotron.argmaxAux rest 1 0 (some v) := by
      simp [Nemotron.argmaxIdx, Nemotron.argmaxAux]
    rcases Nemotron.argmaxAux_some_spec rest 1 0 v with
      ⟨heq, hall⟩ | ⟨k, hk, heq, hgt, hmax, hfirst⟩
    · rw [hstep, heq]
      refine ⟨by simp, ?_, ?_⟩
      · intro j hj
        cases j with
        | zero => simp
        | succ j =>
          simp only [List.getD_cons_succ, List.getD_cons_zero]
          exact hall j (by simpa using hj)
      · intro j hj
        exact absurd hj (Nat.not_lt_zero j)
    · have heq1 : Nemotron.argmaxIdx (v :: rest) = k + 1 := by
        rw [hstep, heq]; omega
      rw [heq1]
      refine ⟨by simpa using hk, ?_, ?_⟩
      · intro j hj
        cases j with
        | zero =>
          simp only [List.getD_cons_zero, List.getD_cons_succ]
          exact le_of_lt hgt
        | succ j =>
          simp only [List.getD_cons_succ]
          exact hmax j (by simpa using hj)
      · intro j hj
        cases j with
        | zero =>
          simp only [List.getD_cons_zero, List.getD_cons_succ]
          exact hgt
        | succ j =>
          simp only [List.getD_cons_succ]
          exact hfirst j (by omega)

theorem Nemotron.greedyInner_count_le {St Err : Type}
    (runDec : (Nat → ℚ) → Int → St → St → Except Err (List ℚ × St × St))
    (frame : Nat → ℚ) :
    ∀ (fuel : Nat) (st : DecTriple St),
      (Nemotron.greedyInner runDec frame fuel st).2.2 ≤ fuel := by
  intro fuel
  induction fuel with
  | zero => intro st; simp [Nemotron.greedyInner]
  | succ fuel ih =>
    intro st
    simp only [Nemotron.greedyInner]
    rcases hr : runDec frame st.last_token st.state_1 st.state_2 with
      e | ⟨logits, n1, n2⟩
    · simp
    · simp only
      by_cases hb : Nemotron.argmaxIdx logits = BLANK_ID
      · rw [if_pos hb]; simp
      · rw [if_neg hb]
        have hc := ih ⟨(Nemotron.argmaxIdx logits : Int), n1, n2⟩
        rcases hrec : Nemotron.greedyInner runDec frame fuel
            ⟨(Nemotron.argmaxIdx logits : Int), n1, n2⟩ with ⟨res, st2, c⟩
        rw [hrec] at hc
        simp only at hc
        cases res <;> simp <;> omega

theorem Nemotron.decode_chunk_count_le {St Err : Type}
    (runDec : (Nat → ℚ) → Int → St → St → Except Err (List ℚ × St × St))
    (encoder_out : Tens3) :
    ∀ (n : Nat) (st : DecTriple St),
      (Nemotron.decode_chunk runDec encoder_out n st).2.2 ≤
        MAX_SYMBOLS_PER_STEP * n := by
  intro n
  induction n with
  | zero => intro st; simp [Nemotron.decode_chunk]
  | succ n ih =>
    intro st
    simp only [Nemotron.decode_chunk]
    rcases hd : Nemotron.decode_chunk runDec encoder_out n st with ⟨res1, st1, c1⟩
    have h1 := ih st
    rw [hd] at h1
    simp only at h1
    cases res1 with
    | error e =>
      simp only
      simp only [MAX_SYMBOLS_PER_STEP] at *
      omega
    | ok ts1 =>
      simp only [MAX_SYMBOLS_PER_STEP] at *
      rcases hg : Nemotron.greedyInner runDec (fun h => encoder_out.entry 0 h n)
          10 st1 with ⟨res2, st2, c2⟩
      have h2 := Nemotron.greedyInner_count_le runDec
        (fun h => encoder_out.entry 0 h n) 10 st1
      rw [hg] at h2
      simp only at h2
      try rw [hg]
      cases res2 <;> simp only <;> omega

/-- C4: the greedy decode loop visits the encoder frames in order and makes
at most `MAX_SYMBOLS_PER_STEP = 10` joint invocations per frame; the argmax
over the logits is the first (lowest) index attaining the maximum; a blank
argmax breaks the inner loop with predictor state and last token unchanged;
a non-blank argmax is emitted, becomes the last token and replaces both
predictor state tensors; exhausted fuel (the symbol cap) advances to the
next frame without further emission. -/
theorem C4_greedy_decode :
    (∀ l : List ℚ, l ≠ [] →
        Nemotron.argmaxIdx l < l.length ∧
        (∀ j, j < l.length → l.getD j 0 ≤ l.getD (Nemotron.argmaxIdx l) 0) ∧
        (∀ j, j < Nemotron.argmaxIdx l →
          l.getD j 0 < l.getD (Nemotron.argmaxIdx l) 0)) ∧
    (∀ (St Err : Type)
        (runDec : (Nat → ℚ) → Int → St → St → Except Err (List ℚ × St × St))
        (frame : Nat → ℚ) (st : DecTriple St),
        Nemotron.greedyInner runDec frame 0 st = (.ok [], st, 0)) ∧
    (∀ (St Err : Type)
        (runDec : (Nat → ℚ) → Int → St → St → Except Err (List ℚ × St × St))
        (frame : Nat → ℚ) (fuel : Nat) (st : DecTriple St) (logits : List ℚ)
        (n1 n2 : St),
        runDec frame st.last_token st.state_1 st.state_2 = .ok (logits, n1, n2) →
        Nemotron.argmaxIdx logits = BLANK_ID →
        Nemotron.greedyInner runDec frame (fuel + 1) st = (.ok [], st, 1)) ∧
    (∀ (St Err : Type)
        (runDec : (Nat → ℚ) → Int → St → St → Except Err (List ℚ × St × St))
        (frame : Nat → ℚ) (fuel : Nat) (st : DecTriple St) (logits : List ℚ)
        (n1 n2 : St),
        runDec frame st.last_token st.state_1 st.state_2 = .ok (logits, n1, n2) →
        Nemotron.argmaxIdx logits ≠ BLANK_ID →
        Nemotron.greedyInner runDec frame (fuel + 1) st =
          (match Nemotron.greedyInner runDec frame fuel
              ⟨(Nemotron.argmaxIdx logits : Int), n1, n2⟩ with
            | (.ok ts, st2, c) =>
                (.ok (Nemotron.argmaxIdx logits :: ts), st2, c + 1)
            | (.error e, st2, c) => (.error e, st2, c + 1))) ∧
    (∀ (St Err : Type)
        (runDec : (Nat → ℚ) → Int → St → St → Except Err (List ℚ × St × St))
        (frame : Nat → ℚ) (fuel : Nat) (st : DecTriple St),
        (Nemotron.greedyInner runDec frame fuel st).2.2 ≤ fuel) ∧
    (∀ (St Err : Type)
        (runDec : (Nat → ℚ) → Int → St → St → Except Err (List ℚ × St × St))
        (encoder_out : Tens3) (n : Nat) (st : DecTriple St),
        (Nemotron.decode_chunk runDec encoder_out n st).2.2 ≤
          MAX_SYMBOLS_PER_STEP * n) ∧
    (∀ (St Err : Type)
        (runDec : (Nat → ℚ) → Int → St → St → Except Err (List ℚ × St × St))
        (encoder_out : Tens3) (n : Nat) (st : DecTriple St),
        Nemotron.decode_chunk runDec encoder_out (n + 1) st =
          (match Nemotron.decode_chunk runDec encoder_out n st with
            | (.ok ts1, st1, c1) =>
              (match Nemotron.greedyInner runDec
                  (fun h => encoder_out.entry 0 h n)
                  MAX_SYMBOLS_PER_STEP st1 with
                | (.ok ts2, st2, c2) => (.ok (ts1 ++ ts2), st2, c1 + c2)
                | (.error e, st2, c2) => (.error e, st2, c1 + c2))
            | r => r)) := by
  refine ⟨fun l hl => Nemotron.argmaxIdx_spec l hl,
    fun _ _ _ _ _ => rfl, ?_, ?_,
    fun _ _ runDec frame fuel st =>
      Nemotron.greedyInner_count_le runDec frame fuel st,
    fun _ _ runDec encoder_out n st =>
      Nemotron.decode_chunk_count_le runDec encoder_out n st,
    fun _ _ _ _ _ _ => rfl⟩
  · intro St Err runDec frame fuel st logits n1 n2 hr hb
    simp [Nemotron.greedyInner, hr, hb]
  · intro St Err runDec frame fuel st logits n1 n2 hr hb
    simp only [Nemotron.greedyInner, hr]
    rw [if_neg hb]

theorem C4_greedy_decode_witness :
    Nemotron.greedyInner
      (fun (_ : Nat → ℚ) (_ : Int) (_ : Nat) (_ : Nat) =>
        (.ok ([5], 7, 8) : Except Unit (List ℚ × Nat × Nat)))
      (fun _ => 0) 1 ⟨1024, 0, 0⟩ = (.ok [0], ⟨0, 7, 8⟩, 1) := by
  have h := C4_greedy_decode.2.2.2.1 Nat Unit
    (fun _ _ _ _ => (.ok ([5], 7, 8) : Except Unit (List ℚ × Nat × Nat)))
    (fun _ => 0) 0 ⟨1024, 0, 0⟩ [5] 7 8 rfl (by decide)
  rw [h]
  rfl

theorem Nemotron.transcribe_chunk_shape {Cache St Err : Type}
    (M : ModelOracle Cache St Err) (lnO : ℚ → ℚ)
    (fftNormSq : (Nat → ℚ) → Nat → ℚ) (isFin : ℚ → Bool)
    (s : RecState Cache St) (chunk : List ℚ) :
    Nemotron.transcribe_chunk M lnO fftNormSq isFin s chunk =
        (.ok [], { s with audio_buffer := s.audio_buffer ++ chunk }) ∨
    (∃ e, Nemotron.transcribe_chunk M lnO fftNormSq isFin s chunk =
        (.error e, { s with audio_buffer := s.audio_buffer ++ chunk })) ∨
    (∃ e nc lt t1 t2,
        Nemotron.transcribe_chunk M lnO fftNormSq isFin s chunk =
          (.error e, { s with
            audio_buffer := s.audio_buffer ++ chunk,
            encoderCache := nc,
            last_token := lt,
            state_1 := t1,
            state_2 := t2 })) ∨
    (∃ tokens nc lt t1 t2,
        Nemotron.transcribe_chunk M lnO fftNormSq isFin s chunk =
          (.ok (tokens.flatMap fun tk =>
              if tk < VOCAB_SIZE then
                SentencePieceVocab.decode_single s.vocab tk
              else []),
            { s with
              audio_buffer :=
                (Nemotron.trim_buffer s.chunk_size (s.audio_buffer ++ chunk)
                  (s.audio_processed + s.chunk_size * HOP_LENGTH)).1,
              audio_processed :=
                (Nemotron.trim_buffer s.chunk_size (s.audio_buffer ++ chunk)
                  (s.audio_processed + s.chunk_size * HOP_LENGTH)).2,
              encoderCache := nc, last_token := lt, state_1 := t1,
              state_2 := t2, chunk_idx := s.chunk_idx + 1,
              accumulated_tokens := s.accumulated_tokens ++ tokens })) := by
  simp only [Nemotron.transcribe_chunk]
  split
  · exact Or.inl rfl
  · split
    · exact Or.inl rfl
    · split
      · next e heq => exact Or.inr (Or.inl ⟨e, rfl⟩)
      · next enc elen nc heq =>
        split
        · next e dst cnt heq2 =>
          exact Or.inr (Or.inr (Or.inl
            ⟨e, nc, dst.last_token, dst.state_1, dst.state_2, rfl⟩))
        · next tokens dst cnt heq2 =>
          exact Or.inr (Or.inr (Or.inr
            ⟨tokens, nc, dst.last_token, dst.state_1, dst.state_2, rfl⟩))

/-- The effect of one `transcribe_chunk` call through `encOracle 0` when
the pump fires: cache bumped, no tokens (the encoder reports 0 frames),
cursors advanced, buffer trimmed. -/
theorem Nemotron.encOracle_pump (s : RecState Nat Nat) (chunk : List ℚ)
    (h1 : ¬ (s.audio_buffer ++ chunk).length < WIN_LENGTH)
    (h2 : ¬ (Nemotron.compute_mel_spectrogram id (fun _ _ => 0)
        (fun _ => true) s.melBasis s.window (s.audio_buffer ++ chunk)).cols -
      s.audio_processed / HOP_LENGTH < s.chunk_size) :
    Nemotron.transcribe_chunk (encOracle 0) id (fun _ _ => 0) (fun _ => true)
        s chunk =
      (.ok [], { s with
        encoderCache := s.encoderCache + 1,
        audio_buffer := (Nemotron.trim_buffer s.chunk_size
          (s.audio_buffer ++ chunk)
          (s.audio_processed + s.chunk_size * HOP_LENGTH)).1,
        audio_processed := (Nemotron.trim_buffer s.chunk_size
          (s.audio_buffer ++ chunk)
          (s.audio_processed + s.chunk_size * HOP_LENGTH)).2,
        chunk_idx := s.chunk_idx + 1 }) := by
  have hdec : ∀ st : DecTriple Nat,
      Nemotron.decode_chunk
        (fun (_ : Nat → ℚ) (_ : Int) (a b : Nat) =>
          (Except.ok ([], a, b) : Except Unit (List ℚ × Nat × Nat)))
        zeroTens (Nemotron.usizeOfI64 0) st = (.ok [], st, 0) := fun st => rfl
  simp only [Nemotron.transcribe_chunk]
  rw [if_neg h1, if_neg h2]
  simp only [encOracle]
  rw [hdec ⟨s.last_token, s.state_1, s.state_2⟩]
  simp

/-- The effect of one `transcribe_chunk` call through `errDecOracle` when
the pump fires: the encoder succeeds and the cache is replaced, then the
decoder-joint fails, so the call errors with the new cache kept. -/
theorem Nemotron.errDecOracle_pump (s : RecState Nat Nat) (chunk : List ℚ)
    (h1 : ¬ (s.audio_buffer ++ chunk).length < WIN_LENGTH)
    (h2 : ¬ (Nemotron.compute_mel_spectrogram id (fun _ _ => 0)
        (fun _ => true) s.melBasis s.window (s.audio_buffer ++ chunk)).cols -
      s.audio_processed / HOP_LENGTH < s.chunk_size) :
    Nemotron.transcribe_chunk errDecOracle id (fun _ _ => 0) (fun _ => true)
        s chunk =
      (.error (), { s with
        encoderCache := s.encoderCache + 1,
        audio_buffer := s.audio_buffer ++ chunk }) := by
  have hdec : ∀ st : DecTriple Nat,
      Nemotron.decode_chunk
        (fun (_ : Nat → ℚ) (_ : Int) (_ _ : Nat) =>
          (Except.error () : Except Unit (List ℚ × Nat × Nat)))
        zeroTens (Nemotron.usizeOfI64 1) st = (.error (), st, 1) :=
    fun st => rfl
  simp only [Nemotron.transcribe_chunk]
  rw [if_neg h1, if_neg h2]
  simp only [errDecOracle]
  rw [hdec ⟨s.last_token, s.state_1, s.state_2⟩]

/-- C1 counterexample: with an encoder that succeeds and a decoder-joint
that fails, `transcribe_chunk` returns an error, yet the encoder cache has
already been replaced (0 → 1): the cache is NOT "replaced only when the
whole call succeeds".  (`chunk_size := 1` is a legal construction
parameter; 400 samples make one mel chunk available.) -/
theorem C1_counterexample :
    (Nemotron.transcribe_chunk errDecOracle id (fun _ _ => 0) (fun _ => true)
        { baseState with chunk_size := 1 } (List.replicate 400 0)).1 =
      .error () ∧
    (Nemotron.transcribe_chunk errDecOracle id (fun _ _ => 0) (fun _ => true)
        { baseState with chunk_size := 1 } (List.replicate 400 0)).2.encoderCache
      = 1 ∧
    ({ baseState with chunk_size := 1 } : RecState Nat Nat).encoderCache = 0 := by
  have h1 : ¬ ((({ baseState with chunk_size := 1 } :
      RecState Nat Nat).audio_buffer ++ List.replicate 400 (0 : ℚ)).length <
      WIN_LENGTH) := by
    norm_num [baseState, WIN_LENGTH]
  have h2 : ¬ ((Nemotron.compute_mel_spectrogram id (fun _ _ => 0)
      (fun _ => true)
      ({ baseState with chunk_size := 1 } : RecState Nat Nat).melBasis
      ({ baseState with chunk_size := 1 } : RecState Nat Nat).window
      (({ baseState with chunk_size := 1 } :
        RecState Nat Nat).audio_buffer ++ List.replicate 400 (0 : ℚ))).cols -
      ({ baseState with chunk_size := 1 } :
        RecState Nat Nat).audio_processed / HOP_LENGTH <
      ({ baseState with chunk_size := 1 } : RecState Nat Nat).chunk_size) := by
    rw [Nemotron.compute_mel_spectrogram_cols]
    norm_num [baseState, specCenteredFrameCount, WIN_LENGTH, HOP_LENGTH, N_FFT]
  rw [Nemotron.errDecOracle_pump _ _ h1 h2]
  exact ⟨rfl, by norm_num [baseState], rfl⟩

/-- C1 amended: a failed `transcribe_chunk` leaves the accumulated token
stream, `processed_samples` and `chunk_idx` unchanged (and only appends
the new samples to the audio buffer), so retrying with the next chunk is
safe at that level; but the encoder cache and the predictor state /
last token are NOT rolled back: the cache is replaced as soon as the
encoder call succeeds, before decoding. -/
theorem C1_error_state {Cache St Err : Type} (M : ModelOracle Cache St Err)
    (lnO : ℚ → ℚ) (fftNormSq : (Nat → ℚ) → Nat → ℚ) (isFin : ℚ → Bool)
    (s : RecState Cache St) (chunk : List ℚ) (e : Err)
    (h : (Nemotron.transcribe_chunk M lnO fftNormSq isFin s chunk).1 =
      .error e) :
    (Nemotron.transcribe_chunk M lnO fftNormSq isFin s
        chunk).2.accumulated_tokens = s.accumulated_tokens ∧
    (Nemotron.transcribe_chunk M lnO fftNormSq isFin s
        chunk).2.audio_processed = s.audio_processed ∧
    (Nemotron.transcribe_chunk M lnO fftNormSq isFin s chunk).2.chunk_idx =
      s.chunk_idx ∧
    (Nemotron.transcribe_chunk M lnO fftNormSq isFin s chunk).2.audio_buffer =
      s.audio_buffer ++ chunk ∧
    (Nemotron.transcribe_chunk M lnO fftNormSq isFin s chunk).2.vocab =
      s.vocab ∧
    (Nemotron.transcribe_chunk M lnO fftNormSq isFin s chunk).2.chunk_size =
      s.chunk_size := by
  rcases Nemotron.transcribe_chunk_shape M lnO fftNormSq isFin s chunk with
    h1 | ⟨e2, h1⟩ | ⟨e2, nc, lt, t1, t2, h1⟩ | ⟨tokens, nc, lt, t1, t2, h1⟩
  · rw [h1] at h; simp at h
  · rw [h1]; simp
  · rw [h1]; simp
  · rw [h1] at h; simp at h

theorem C1_error_state_witness :
    (Nemotron.transcribe_chunk errDecOracle id (fun _ _ => 0) (fun _ => true)
        { baseState with chunk_size := 1 }
        (List.replicate 400 0)).2.accumulated_tokens = [] := by
  have h := C1_error_state errDecOracle id (fun _ _ => 0) (fun _ => true)
    { baseState with chunk_size := 1 } (List.replicate 400 0) () rfl
  simpa using h.1

/-- C2 counterexample: a single `transcribe_chunk` call that supplies many
new samples leaves the buffer above `2·keep_samples`, because the drain is
capped by `processed_samples`: with `chunk_size = 1`
(`keep_samples = 2000`), feeding 4161 samples to a fresh recognizer ends
with a 4001-sample buffer > 4000. -/
theorem C2_counterexample :
    (Nemotron.transcribe_chunk (encOracle 0) id (fun _ _ => 0)
        (fun _ => true) { baseState with chunk_size := 1 }
        (List.replicate 4161 0)).2.audio_buffer.length = 4001 ∧
    ((PRE_ENCODE_CACHE +
        ({ baseState with chunk_size := 1 } : RecState Nat Nat).chunk_size) *
      HOP_LENGTH + WIN_LENGTH) * 2 = 4000 ∧
    4000 < 4001 := by
  have hA : ({ baseState with chunk_size := 1 } :
      RecState Nat Nat).audio_buffer = ([] : List ℚ) := rfl
  have hP : ({ baseState with chunk_size := 1 } :
      RecState Nat Nat).audio_processed = 0 := rfl
  have hC : ({ baseState with chunk_size := 1 } :
      RecState Nat Nat).chunk_size = 1 := rfl
  have h1 : ¬ ((({ baseState with chunk_size := 1 } :
      RecState Nat Nat).audio_buffer ++ List.replicate 4161 (0 : ℚ)).length <
      WIN_LENGTH) := by
    rw [hA, List.nil_append, List.length_replicate]
    norm_num [WIN_LENGTH]
  have h2 : ¬ ((Nemotron.compute_mel_spectrogram id (fun _ _ => 0)
      (fun _ => true)
      ({ baseState with chunk_size := 1 } : RecState Nat Nat).melBasis
      ({ baseState with chunk_size := 1 } : RecState Nat Nat).window
      (({ baseState with chunk_size := 1 } :
        RecState Nat Nat).audio_buffer ++ List.replicate 4161 (0 : ℚ))).cols -
      ({ baseState with chunk_size := 1 } :
        RecState Nat Nat).audio_processed / HOP_LENGTH <
      ({ baseState with chunk_size := 1 } : RecState Nat Nat).chunk_size) := by
    rw [Nemotron.compute_mel_spectrogram_cols, hA, List.nil_append,
      List.length_replicate, hP, hC]
    norm_num [specCenteredFrameCount, WIN_LENGTH, HOP_LENGTH, N_FFT]
  refine ⟨?_, by norm_num [baseState, PRE_ENCODE_CACHE, HOP_LENGTH, WIN_LENGTH],
    by norm_num⟩
  rw [Nemotron.encOracle_pump _ _ h1 h2]
  simp only [baseState]
  rw [List.nil_append]
  simp only [Nemotron.trim_buffer]
  split
  · next hcond =>
    rw [List.length_drop, List.length_replicate]
    rw [List.length_replicate] at hcond
    simp only [PRE_ENCODE_CACHE, HOP_LENGTH, WIN_LENGTH] at hcond ⊢
    omega
  · next hcond =>
    rw [List.length_replicate] at hcond ⊢
    simp only [PRE_ENCODE_CACHE, HOP_LENGTH, WIN_LENGTH] at hcond
    omega

/-- C2 amended: the trim step drains `min(len − keep_samples,
processed_samples)` from the front and decrements `processed_samples` by
the same amount; the `2·keep_samples` bound therefore holds after a call
whenever the drain is not capped (`len − keep_samples ≤
processed_samples` at trim time), and in general the buffer never exceeds
`max(2·keep_samples, previous length + new samples)`. -/
theorem C2_buffer_bound :
    (∀ (chunkSize : Nat) (buf : List ℚ) (processed : Nat),
        (((PRE_ENCODE_CACHE + chunkSize) * HOP_LENGTH + WIN_LENGTH) * 2 <
            buf.length →
          Nemotron.trim_buffer chunkSize buf processed =
            (buf.drop (min (buf.length -
                ((PRE_ENCODE_CACHE + chunkSize) * HOP_LENGTH + WIN_LENGTH))
                processed),
             processed - min (buf.length -
                ((PRE_ENCODE_CACHE + chunkSize) * HOP_LENGTH + WIN_LENGTH))
                processed)) ∧
        (¬ ((PRE_ENCODE_CACHE + chunkSize) * HOP_LENGTH + WIN_LENGTH) * 2 <
            buf.length →
          Nemotron.trim_buffer chunkSize buf processed = (buf, processed)) ∧
        (buf.length - ((PRE_ENCODE_CACHE + chunkSize) * HOP_LENGTH + WIN_LENGTH)
            ≤ processed →
          (Nemotron.trim_buffer chunkSize buf processed).1.length ≤
            ((PRE_ENCODE_CACHE + chunkSize) * HOP_LENGTH + WIN_LENGTH) * 2)) ∧
    (∀ (Cache St Err : Type) (M : ModelOracle Cache St Err) (lnO : ℚ → ℚ)
        (fftNormSq : (Nat → ℚ) → Nat → ℚ) (isFin : ℚ → Bool)
        (s : RecState Cache St) (chunk : List ℚ),
        (Nemotron.transcribe_chunk M lnO fftNormSq isFin s
            chunk).2.audio_buffer.length ≤
          max (((PRE_ENCODE_CACHE + s.chunk_size) * HOP_LENGTH + WIN_LENGTH) * 2)
            (s.audio_buffer.length + chunk.length)) := by
  constructor
  · intro chunkSize buf processed
    refine ⟨?_, ?_, ?_⟩
    · intro hlt
      simp only [Nemotron.trim_buffer]
      rw [if_pos hlt]
    · intro hge
      simp only [Nemotron.trim_buffer]
      rw [if_neg hge]
    · intro hcap
      simp only [Nemotron.trim_buffer]
      split
      · next hlt =>
        simp only [List.length_drop]
        omega
      · next hge =>
        simp only
        omega
  · intro Cache St Err M lnO fftNormSq isFin s chunk
    rcases Nemotron.transcribe_chunk_shape M lnO fftNormSq isFin s chunk with
      h1 | ⟨e2, h1⟩ | ⟨e2, nc, lt, t1, t2, h1⟩ | ⟨tokens, nc, lt, t1, t2, h1⟩
    · rw [h1]
      simp only [List.length_append, le_max_iff]
      exact Or.inr le_rfl
    · rw [h1]
      simp only [List.length_append, le_max_iff]
      exact Or.inr le_rfl
    · rw [h1]
      simp only [List.length_append, le_max_iff]
      exact Or.inr le_rfl
    · rw [h1]
      simp only [Nemotron.trim_buffer]
      split
      · next hlt =>
        simp only [List.length_append] at hlt
        simp only [List.length_drop, List.length_append, le_max_iff]
        omega
      · next hge =>
        simp only [List.length_append] at hge
        simp only [List.length_append, le_max_iff]
        omega

theorem C2_buffer_bound_witness :
    (Nemotron.trim_buffer 1 (List.replicate 4001 (0 : ℚ)) 5000).1.length ≤
      ((PRE_ENCODE_CACHE + 1) * HOP_LENGTH + WIN_LENGTH) * 2 := by
  refine (C2_buffer_bound.1 1 (List.replicate 4001 (0 : ℚ)) 5000).2.2 ?_
  norm_num [PRE_ENCODE_CACHE, HOP_LENGTH, WIN_LENGTH]

/-- C3 counterexample: `transcribe_chunk` with the empty slice is NOT a
no-op on every state: after one call that left at least `chunk_size`
unprocessed mel frames buffered, a second call with the empty slice pumps
another chunk (here `chunk_idx` advances from 1 to 2). -/
theorem C3_counterexample :
    (Nemotron.transcribe_chunk (encOracle 0) id (fun _ _ => 0) (fun _ => true)
        ((Nemotron.transcribe_chunk (encOracle 0) id (fun _ _ => 0)
            (fun _ => true) { baseState with chunk_size := 1 }
            (List.replicate 400 0)).2) []).2.chunk_idx = 2 ∧
    (Nemotron.transcribe_chunk (encOracle 0) id (fun _ _ => 0) (fun _ => true)
        { baseState with chunk_size := 1 }
        (List.replicate 400 0)).2.chunk_idx = 1 := by
  have h1 : ¬ ((({ baseState with chunk_size := 1 } :
      RecState Nat Nat).audio_buffer ++ List.replicate 400 (0 : ℚ)).length <
      WIN_LENGTH) := by
    norm_num [baseState, WIN_LENGTH]
  have h2 : ¬ ((Nemotron.compute_mel_spectrogram id (fun _ _ => 0)
      (fun _ => true)
      ({ baseState with chunk_size := 1 } : RecState Nat Nat).melBasis
      ({ baseState with chunk_size := 1 } : RecState Nat Nat).window
      (({ baseState with chunk_size := 1 } :
        RecState Nat Nat).audio_buffer ++ List.replicate 400 (0 : ℚ))).cols -
      ({ baseState with chunk_size := 1 } :
        RecState Nat Nat).audio_processed / HOP_LENGTH <
      ({ baseState with chunk_size := 1 } : RecState Nat Nat).chunk_size) := by
    rw [Nemotron.compute_mel_spectrogram_cols]
    norm_num [baseState, specCenteredFrameCount, WIN_LENGTH, HOP_LENGTH, N_FFT]
  have e1 : Nemotron.transcribe_chunk (encOracle 0) id (fun _ _ => 0)
      (fun _ => true) { baseState with chunk_size := 1 }
      (List.replicate 400 0) =
      (.ok [], { baseState with
        chunk_size := 1,
        encoderCache := 1,
        audio_buffer := List.replicate 400 (0 : ℚ),
        audio_processed := 160,
        chunk_idx := 1 }) := by
    rw [Nemotron.encOracle_pump _ _ h1 h2]
    norm_num [baseState, Nemotron.trim_buffer, PRE_ENCODE_CACHE, HOP_LENGTH,
      WIN_LENGTH]
  refine ⟨?_, by rw [e1]⟩
  rw [e1]
  have h1b : ¬ ((({ baseState with
      chunk_size := 1,
      encoderCache := 1,
      audio_buffer := List.replicate 400 (0 : ℚ),
      audio_processed := 160,
      chunk_idx := 1 } : RecState Nat Nat).audio_buffer ++
      ([] : List ℚ)).length < WIN_LENGTH) := by
    norm_num [baseState, WIN_LENGTH]
  have h2b : ¬ ((Nemotron.compute_mel_spectrogram id (fun _ _ => 0)
      (fun _ => true)
      ({ baseState with
        chunk_size := 1,
        encoderCache := 1,
        audio_buffer := List.replicate 400 (0 : ℚ),
        audio_processed := 160,
        chunk_idx := 1 } : RecState Nat Nat).melBasis
      ({ baseState with
        chunk_size := 1,
        encoderCache := 1,
        audio_buffer := List.replicate 400 (0 : ℚ),
        audio_processed := 160,
        chunk_idx := 1 } : RecState Nat Nat).window
      (({ baseState with
        chunk_size := 1,
        encoderCache := 1,
        audio_buffer := List.replicate 400 (0 : ℚ),
        audio_processed := 160,
        chunk_idx := 1 } : RecState Nat Nat).audio_buffer ++
        ([] : List ℚ))).cols -
      ({ baseState with
        chunk_size := 1,
        encoderCache := 1,
        audio_buffer := List.replicate 400 (0 : ℚ),
        audio_processed := 160,
        chunk_idx := 1 } : RecState Nat Nat).audio_processed / HOP_LENGTH <
      ({ baseState with
        chunk_size := 1,
        encoderCache := 1,
        audio_buffer := List.replicate 400 (0 : ℚ),
        audio_processed := 160,
        chunk_idx := 1 } : RecState Nat Nat).chunk_size) := by
    rw [Nemotron.compute_mel_spectrogram_cols]
    norm_num [baseState, specCenteredFrameCount, WIN_LENGTH, HOP_LENGTH, N_FFT]
  rw [Nemotron.encOracle_pump _ _ h1b h2b]

/-- C3 amended: `transcribe_chunk []` returns the empty string and leaves
the state unchanged whenever the buffered audio is below `WIN_LENGTH` or
fewer than `chunk_size` new mel frames are available (in particular on a
freshly constructed or reset recognizer); with enough already-buffered
unprocessed audio the empty-slice call still pumps a chunk. -/
theorem C3_empty_noop {Cache St Err : Type} (M : ModelOracle Cache St Err)
    (lnO : ℚ → ℚ) (fftNormSq : (Nat → ℚ) → Nat → ℚ) (isFin : ℚ → Bool)
    (s : RecState Cache St)
    (h : s.audio_buffer.length < WIN_LENGTH ∨
      (Nemotron.compute_mel_spectrogram lnO fftNormSq isFin s.melBasis
          s.window s.audio_buffer).cols - s.audio_processed / HOP_LENGTH <
        s.chunk_size) :
    Nemotron.transcribe_chunk M lnO fftNormSq isFin s [] = (.ok [], s) := by
  simp only [Nemotron.transcribe_chunk, List.append_nil]
  rcases h with h | h
  · rw [if_pos h]
  · by_cases h1 : s.audio_buffer.length < WIN_LENGTH
    · rw [if_pos h1]
    · rw [if_neg h1, if_pos h]

theorem C3_empty_noop_witness :
    Nemotron.transcribe_chunk (encOracle 0) id (fun _ _ => 0) (fun _ => true)
      baseState [] = (.ok [], baseState) := by
  exact C3_empty_noop (encOracle 0) id (fun _ _ => 0) (fun _ => true)
    baseState (Or.inl (by norm_num [baseState, WIN_LENGTH]))
